import Mathlib

/-!
Verification development for the `@lickle/bin` binary codec library
(`src/index.ts`).  Buffers are modelled as `List Nat` of byte values;
multi-byte integers are read and written through explicit base-256
arithmetic mirroring the `DataView` getters and setters used in the
source.  JavaScript strings are represented by their UTF-8 byte
sequences (the image of `TextEncoder`), so `TextEncoder` is the
identity on the representation and the fatal `TextDecoder` is a
validity check (`validUtf8`).
-/

namespace LB

/-! ## Base-256 integer serialisation (the `DataView` layer) -/

/-- Big-endian bytes of `n mod 256^w`, `w` bytes wide, as written by
`DataView.setUintN`/`setBigUint64` with the big-endian flag. -/
def beBytes : Nat → Nat → List Nat
  | 0, _ => []
  | w + 1, n => beBytes w (n / 256) ++ [n % 256]

/-- Big-endian value of a byte list, as read by `DataView.getUintN`. -/
def beNat (bs : List Nat) : Nat := bs.foldl (fun a b => a * 256 + b) 0

/-- Bytes written for an unsigned value with the codec's endian flag
(`le = true` mirrors `endian === 'le'`). -/
def uintBytes (le : Bool) (w : Nat) (n : Nat) : List Nat :=
  if le then (beBytes w n).reverse else beBytes w n

/-- Unsigned value of a `w`-byte chunk with the endian flag. -/
def uVal (le : Bool) (chunk : List Nat) : Nat :=
  beNat (if le then chunk.reverse else chunk)

/-- Signed reinterpretation of the unsigned value of a `w`-byte chunk,
mirroring `DataView.getIntN`/`getBigInt64`. -/
def sVal (le : Bool) (w : Nat) (chunk : List Nat) : Int :=
  let u := uVal le chunk
  if u < 2 ^ (8 * w - 1) then (u : Int) else (u : Int) - 2 ^ (8 * w)

@[simp] theorem length_beBytes (w n : Nat) : (beBytes w n).length = w := by
  induction w generalizing n with
  | zero => simp [beBytes]
  | succ w ih => simp [beBytes, ih]

@[simp] theorem length_uintBytes (le : Bool) (w n : Nat) :
    (uintBytes le w n).length = w := by
  cases le <;> simp [uintBytes]

theorem beNat_append_singleton (bs : List Nat) (b : Nat) :
    beNat (bs ++ [b]) = beNat bs * 256 + b := by
  simp [beNat, List.foldl_append]

theorem beNat_beBytes (w n : Nat) (h : n < 256 ^ w) : beNat (beBytes w n) = n := by
  induction w generalizing n with
  | zero =>
    simp [beBytes, beNat]
    omega
  | succ w ih =>
    have hdiv : n / 256 < 256 ^ w := by
      rw [Nat.div_lt_iff_lt_mul (by omega)]
      calc n < 256 ^ (w + 1) := h
        _ = 256 ^ w * 256 := by ring
    rw [beBytes, beNat_append_singleton, ih _ hdiv]
    omega

theorem uVal_uintBytes (le : Bool) (w n : Nat) (h : n < 256 ^ w) :
    uVal le (uintBytes le w n) = n := by
  cases le <;> simp [uVal, uintBytes, beNat_beBytes w n h]

theorem pow256_eq_pow2 (w : Nat) : (256 : Nat) ^ w = 2 ^ (8 * w) := by
  rw [show (256 : Nat) = 2 ^ 8 from rfl, ← pow_mul]

theorem two_pow_pred_nat (k : Nat) (hk : 1 ≤ k) : (2 : Nat) ^ k = 2 ^ (k - 1) * 2 := by
  obtain ⟨j, rfl⟩ : ∃ j, k = j + 1 := ⟨k - 1, by omega⟩
  simp [pow_succ]

theorem two_pow_pred_int (k : Nat) (hk : 1 ≤ k) : (2 : Int) ^ k = 2 ^ (k - 1) * 2 := by
  obtain ⟨j, rfl⟩ : ∃ j, k = j + 1 := ⟨k - 1, by omega⟩
  simp [pow_succ]

/-- Round trip for the unsigned integer codecs: an in-range value is
recovered from its wire bytes. -/
theorem uVal_roundtrip (le : Bool) (w : Nat) (n : Int)
    (h0 : 0 ≤ n) (h1 : n < 2 ^ (8 * w)) :
    (uVal le (uintBytes le w (n % (2 ^ (8 * w))).toNat) : Int) = n := by
  have hcast : ((2 ^ (8 * w) : Nat) : Int) = 2 ^ (8 * w) := by push_cast; ring
  have hmod : n % (2 ^ (8 * w) : Int) = n := Int.emod_eq_of_lt h0 h1
  rw [hmod]
  have hlt : n.toNat < 256 ^ w := by
    rw [pow256_eq_pow2]; omega
  rw [uVal_uintBytes le w _ hlt]
  omega

/-- Round trip for the signed integer codecs (two's complement). -/
theorem sVal_roundtrip (le : Bool) (w : Nat) (n : Int) (hw : 1 ≤ w)
    (h0 : -(2 ^ (8 * w - 1)) ≤ n) (h1 : n < 2 ^ (8 * w - 1)) :
    sVal le w (uintBytes le w (n % (2 ^ (8 * w))).toNat) = n := by
  have hdn := two_pow_pred_nat (8 * w) (by omega)
  have hdi := two_pow_pred_int (8 * w) (by omega)
  have hcast : ((2 ^ (8 * w - 1) : Nat) : Int) = 2 ^ (8 * w - 1) := by push_cast; ring
  have hcast2 : ((2 ^ (8 * w) : Nat) : Int) = 2 ^ (8 * w) := by push_cast; ring
  rcases le_or_lt 0 n with hpos | hneg
  · have hmod : n % (2 ^ (8 * w) : Int) = n := by
      refine Int.emod_eq_of_lt hpos (by omega)
    have hltN : n.toNat < 256 ^ w := by
      rw [pow256_eq_pow2]; omega
    unfold sVal
    rw [hmod, uVal_uintBytes le w _ hltN]
    have h2 : n.toNat < 2 ^ (8 * w - 1) := by omega
    simp only [h2, if_true]
    omega
  · have hmod : n % (2 ^ (8 * w) : Int) = n + 2 ^ (8 * w) := by
      have h := Int.add_mul_emod_self_left (a := n) (b := 2 ^ (8 * w)) (c := 1)
      simp only [mul_one] at h
      rw [← h]
      exact Int.emod_eq_of_lt (by omega) (by omega)
    have hltN : (n + 2 ^ (8 * w)).toNat < 256 ^ w := by
      rw [pow256_eq_pow2]; omega
    unfold sVal
    rw [hmod, uVal_uintBytes le w _ hltN]
    have hge : ¬ ((n + 2 ^ (8 * w)).toNat < 2 ^ (8 * w - 1)) := by omega
    simp only [hge, if_false]
    omega

/-! ## UTF-8 validity (the fatal `TextDecoder`)

A JavaScript string is modelled by its UTF-8 byte sequence, the image
of `TextEncoder.encode`.  Under this representation `TextEncoder` is
the identity and `new TextDecoder('utf-8', { fatal: true })` succeeds
exactly on valid UTF-8 byte sequences, checked by `validUtf8`
(RFC 3629 ranges: no overlong forms, no surrogates, max U+10FFFF). -/

/-- Continuation byte test, `0x80..0xBF`. -/
def contB (b : Nat) : Bool := 0x80 ≤ b && b ≤ 0xBF

/-- Continuation-byte ranges demanded by a UTF-8 lead byte, or `none`
for an invalid lead byte (stray continuation, overlong lead `C0`/`C1`,
or a byte above `F4`). -/
def leadSpec (b : Nat) : Option (List (Nat × Nat)) :=
  if b ≤ 0x7F then some []
  else if b < 0xC2 then none
  else if b ≤ 0xDF then some [(0x80, 0xBF)]
  else if b = 0xE0 then some [(0xA0, 0xBF), (0x80, 0xBF)]
  else if b ≤ 0xEC then some [(0x80, 0xBF), (0x80, 0xBF)]
  else if b = 0xED then some [(0x80, 0x9F), (0x80, 0xBF)]
  else if b ≤ 0xEF then some [(0x80, 0xBF), (0x80, 0xBF)]
  else if b = 0xF0 then some [(0x90, 0xBF), (0x80, 0xBF), (0x80, 0xBF)]
  else if b ≤ 0xF3 then some [(0x80, 0xBF), (0x80, 0xBF), (0x80, 0xBF)]
  else if b = 0xF4 then some [(0x80, 0x8F), (0x80, 0xBF), (0x80, 0xBF)]
  else none

/-- Scanner for valid UTF-8: `pending` holds the ranges the next bytes
must fall in to complete the current code point. -/
def vRun : List Nat → List (Nat × Nat) → Bool
  | [], pending => pending.isEmpty
  | b :: rest, [] =>
    match leadSpec b with
    | none => false
    | some rs => vRun rest rs
  | c :: rest, (lo, hi) :: pending => (lo ≤ c && c ≤ hi) && vRun rest pending

/-- A byte sequence is valid UTF-8 (RFC 3629: no overlong forms, no
surrogates, max U+10FFFF) iff the scanner accepts it from the empty
state.  This is the acceptance condition of the fatal `TextDecoder`. -/
def validUtf8 (bs : List Nat) : Bool := vRun bs []

theorem vRun_append (xs ys : List Nat) (p : List (Nat × Nat))
    (hx : vRun xs p = true) (hy : vRun ys [] = true) :
    vRun (xs ++ ys) p = true := by
  induction xs generalizing p with
  | nil =>
    match p, hx with
    | [], _ => simpa using hy
  | cons b rest ih =>
    simp only [List.cons_append]
    match p with
    | [] =>
      rw [vRun] at hx
      rw [vRun]
      cases hls : leadSpec b with
      | none =>
        rw [hls] at hx
        exact absurd hx (by simp)
      | some rs =>
        rw [hls] at hx
        exact ih rs hx
    | (lo, hi) :: pending =>
      rw [vRun] at hx
      rw [vRun]
      simp only [Bool.and_eq_true] at hx ⊢
      exact ⟨hx.1, ih pending hx.2⟩

theorem validUtf8_append (xs ys : List Nat)
    (hx : validUtf8 xs = true) (hy : validUtf8 ys = true) :
    validUtf8 (xs ++ ys) = true :=
  vRun_append xs ys [] hx hy

theorem leadSpec_zero : leadSpec 0 = some [] := by decide

@[simp] theorem validUtf8_replicate_zero (k : Nat) :
    validUtf8 (List.replicate k 0) = true := by
  induction k with
  | zero => rfl
  | succ k ih =>
    show vRun (List.replicate (k + 1) 0) [] = true
    rw [List.replicate_succ, vRun, leadSpec_zero]
    exact ih

/-- Removal of trailing NUL bytes, mirroring `.replace(/\0+$/, '')` on
the decoded string (the NUL character is the single byte `0` in UTF-8,
and no other valid UTF-8 sequence ends in a `0` byte). -/
def stripZeros (bs : List Nat) : List Nat := (bs.reverse.dropWhile (· == 0)).reverse

/-- True when the string does not end in a NUL character, i.e. the
fixed-width codec loses nothing when its padding is stripped. -/
def noTrailZero (bs : List Nat) : Bool :=
  match bs.getLast? with
  | some 0 => false
  | _ => true

theorem stripZeros_pad (bs : List Nat) (k : Nat) (h : noTrailZero bs = true) :
    stripZeros (bs ++ List.replicate k 0) = bs := by
  unfold stripZeros
  rw [List.reverse_append, List.reverse_replicate]
  have hrep : ∀ t : List Nat, List.dropWhile (· == 0) (List.replicate k 0 ++ t) =
      List.dropWhile (· == 0) t := by
    intro t
    induction k with
    | zero => simp
    | succ k ih => simp [List.replicate_succ, List.dropWhile]
  rw [hrep]
  unfold noTrailZero at h
  match hrev : bs.reverse with
  | [] =>
    have hbs : bs = [] := by
      rw [← List.reverse_reverse bs, hrev]
      rfl
    subst hbs
    simp [List.dropWhile]
  | b :: t =>
    have hhead : bs.getLast? = some b := by
      rw [List.getLast?_eq_head?_reverse, hrev]
      rfl
    have hb : b ≠ 0 := by
      intro hb0
      rw [hhead, hb0] at h
      simp at h
    rw [List.dropWhile_cons_of_neg (by simpa using hb), ← hrev, List.reverse_reverse]

/-! ## The value universe

JavaScript runtime values flowing through the codecs.  Strings carry
their UTF-8 bytes (see above); `tagged` is the `[name, payload]` pair
produced and consumed by `taggedUnion`; `obj` is an object as an
association list in property insertion order.  `num` covers the
integer-valued `number`s the integer codecs operate on. -/
inductive Val where
  | num (n : Int)
  | big (n : Int)
  | bool (b : Bool)
  | str (bs : List Nat)
  | bytes (bs : List Nat)
  | arr (vs : List Val)
  | obj (fs : List (String × Val))
  | tagged (t : String) (v : Val)
  | undef
  | null

mutual

/-- Structural (deep) equality of values, the notion behind the deep
equal of the round-trip law and the strict equality used on literal
discriminants. -/
def valEq : Val → Val → Bool
  | .num a, .num b => a == b
  | .big a, .big b => a == b
  | .bool a, .bool b => a == b
  | .str a, .str b => a == b
  | .bytes a, .bytes b => a == b
  | .arr a, .arr b => listValEq a b
  | .obj a, .obj b => fieldsValEq a b
  | .tagged t a, .tagged u b => t == u && valEq a b
  | .undef, .undef => true
  | .null, .null => true
  | _, _ => false
termination_by a => sizeOf a

def listValEq : List Val → List Val → Bool
  | [], [] => true
  | a :: as_, b :: bs_ => valEq a b && listValEq as_ bs_
  | _, _ => false
termination_by a => sizeOf a

def fieldsValEq : List (String × Val) → List (String × Val) → Bool
  | [], [] => true
  | (k, a) :: as_, (l, b) :: bs_ => k == l && valEq a b && fieldsValEq as_ bs_
  | _, _ => false
termination_by a => sizeOf a

end

mutual

theorem valEq_sound : ∀ a b, valEq a b = true → a = b := by
  intro a b h
  cases a <;> cases b <;> rw [valEq.eq_def] at h <;> simp at h
  case num.num => rw [h]
  case big.big => rw [h]
  case bool.bool => rw [h]
  case str.str => rw [h]
  case bytes.bytes => rw [h]
  case arr.arr a b => rw [listValEq_sound a b h]
  case obj.obj a b => rw [fieldsValEq_sound a b h]
  case tagged.tagged t a u b => rw [h.1, valEq_sound a b h.2]
termination_by a => sizeOf a

theorem listValEq_sound : ∀ a b, listValEq a b = true → a = b := by
  intro a b h
  match a, b with
  | [], [] => rfl
  | x :: xs, y :: ys =>
    rw [listValEq] at h
    simp only [Bool.and_eq_true] at h
    rw [valEq_sound x y h.1, listValEq_sound xs ys h.2]
  | [], _ :: _ => rw [listValEq.eq_def] at h; simp at h
  | _ :: _, [] => rw [listValEq.eq_def] at h; simp at h
termination_by a => sizeOf a

theorem fieldsValEq_sound : ∀ a b, fieldsValEq a b = true → a = b := by
  intro a b h
  match a, b with
  | [], [] => rfl
  | (k, x) :: xs, (l, y) :: ys =>
    rw [fieldsValEq] at h
    simp only [Bool.and_eq_true, beq_iff_eq] at h
    rw [h.1.1, valEq_sound x y h.1.2, fieldsValEq_sound xs ys h.2]
  | [], _ :: _ => rw [fieldsValEq.eq_def] at h; simp at h
  | _ :: _, [] => rw [fieldsValEq.eq_def] at h; simp at h
termination_by a => sizeOf a

end

/-! ## Errors and results

Each constructor corresponds to one `throw` site in the source (plus
`typeErr` for the JavaScript `TypeError` raised by indexing into
`undefined`, and `rangeErr` for the `RangeError` raised by
`Uint8Array.set` overflowing a fixed-width slot).  `eof` is the checked
reader's bounds failure; decoding is modelled with the checked reader
of `tryDecode` and behaves identically to the unchecked `decode` path
whenever no read runs past the end of the buffer. -/
inductive Err where
  | eof
  | invalidUtf8
  | strTooLong (n : Nat)
  | strLenOver (n m : Nat)
  | binTooLong
  | binLenOver (n m : Nat)
  | arrTooLong
  | arrLenOver (n m : Nat)
  | badTag (t : String)
  | badTagIndex (i : Nat)
  | missingHeader
  | badVersion (v : Nat)
  | typeErr
  | rangeErr
deriving DecidableEq

/-- Decode result: a value plus the unread suffix of the buffer, or the
raised error plus the suffix unread at the moment of the throw. -/
inductive Res (α : Type) where
  | ok (a : α) (rest : List Nat)
  | err (e : Err) (rest : List Nat)

/-- Sequencing of encoder outputs: bytes written so far paired with the
error that aborted encoding, if any.  On an error the second encoder
never runs, mirroring the throw. -/
def eseq : List Nat × Option Err → (List Nat × Option Err) → List Nat × Option Err
  | (bs, none), (cs, r) => (bs ++ cs, r)
  | (bs, some e), _ => (bs, some e)

/-- Checked read of `n` bytes from the front of the buffer. -/
def rdN (n : Nat) (bs : List Nat) : Option (List Nat × List Nat) :=
  if n ≤ bs.length then some (bs.take n, bs.drop n) else none

/-- Checked read of a single byte (`Uint8.d`). -/
def rd1 : List Nat → Option (Nat × List Nat)
  | b :: rest => some (b, rest)
  | [] => none

/-- Checked read of a big-endian 32-bit length prefix (`Uint32.d`, the
module-level big-endian instance used for all length prefixes). -/
def rdU32 (bs : List Nat) : Option (Nat × List Nat) :=
  match rdN 4 bs with
  | some (chunk, rest) => some (beNat chunk, rest)
  | none => none

/-- The envelope magic header `0xb16ec0de`. -/
def HEADER : Nat := 0xb16ec0de

/-- The envelope format version. -/
def VERSION : Nat := 1

/-! ## The codec universe

One constructor per primitive codec and combinator of the library:
`uintC w le` is the `numCodec` factory for `w`-byte unsigned integers
(`uint8`/`uint16`/`uint32`), `intC` its signed variant, `bigUintC` and
`bigIntC` the 8-byte `bigNumCodec`s, `boolC` is `Bool`, `utf8D`/`utf8F`
are the dynamic (optional `maxBytes`) and fixed `utf8` modes,
`bytesD`/`bytesF` likewise for `bytes`, `litC` is `literal`, `optC` is
`optional`, `nullC` is `nullable`, `arrC` is `array` with its optional
`maxLength`, `structC` is `struct` (field list in declaration order),
`tupleC` is `tuple`, `unionC` is `taggedUnion` (variant list in
declaration order), `duC` is `discriminatedUnion` (candidate struct
shapes), and `envC` is `envelope`.  `float32`/`float64` (IEEE-754
rounding) and `json` (the external `JSON.stringify`/`parse`), and the
`map`/`validate` wrappers that carry arbitrary user functions, are
outside this universe.  `partial` and `intersection` are definable
functions into it, exactly as in the source they are calls to
`struct`. -/
inductive Code where
  | uintC (w : Nat) (le : Bool)
  | intC (w : Nat) (le : Bool)
  | bigUintC (le : Bool)
  | bigIntC (le : Bool)
  | boolC
  | utf8D (maxBytes : Option Nat)
  | utf8F (n : Nat)
  | bytesD (max : Option Nat)
  | bytesF (n : Nat)
  | litC (v : Val)
  | optC (c : Code)
  | nullC (c : Code)
  | arrC (c : Code) (maxLength : Option Nat)
  | structC (fields : List (String × Code))
  | tupleC (elems : List Code)
  | unionC (variants : List (String × Code))
  | duC (tag : String) (cands : List (List (String × Code)))
  | envC (c : Code)

/-- `discriminatedUnion` compares `schema.map(s => s.schema[tag].value)`
against the value's discriminant field with strict equality; a
candidate matches when its `tag` field is a literal bound to that
value. -/
def litMatches (tag : String) (tv : Val) (cand : List (String × Code)) : Bool :=
  match cand.lookup tag with
  | some (.litC x) => valEq x tv
  | _ => false

/-- Index computed by `discriminatedUnion`: `keys.indexOf(v[tag])`,
the first candidate whose `tag` literal equals the value's
discriminant field (`undefined` when the field is missing). -/
def duIdx (tag : String) (cands : List (List (String × Code))) (fs : List (String × Val)) : Nat :=
  cands.findIdx (litMatches tag ((fs.lookup tag).getD .undef))

theorem sizeOf_lookup_lt {β : Type} [SizeOf β] (l : List (String × β)) (t : String) (c : β)
    (h : l.lookup t = some c) : sizeOf c < sizeOf l := by
  induction l with
  | nil => simp [List.lookup] at h
  | cons p rest ih =>
    match p with
    | (k, b) =>
      rw [List.lookup] at h
      by_cases he : t == k
      · rw [he] at h
        simp only at h
        cases h
        simp
        omega
      · have hf : (t == k) = false := by simpa using he
        rw [hf] at h
        simp only at h
        have := ih h
        simp
        omega

theorem sizeOf_get_lt {β : Type} [SizeOf β] (l : List β) (i : Nat) (h : i < l.length) :
    sizeOf (l.get ⟨i, h⟩) < sizeOf l :=
  List.sizeOf_lt_of_mem (l.get_mem i h)

/-! ## Encoding

`encodeC c v` returns the bytes written to the (growable) writer
together with the error that aborted encoding, if any; on an error the
first component holds exactly what had been written before the throw.
Values of the wrong runtime type for a codec (unreachable under the
TypeScript signatures) are modelled as `typeErr`. -/

mutual

def encodeC : Code → Val → List Nat × Option Err
  | .uintC w le, v =>
    match v with
    | .num n => (uintBytes le w (n % (2 ^ (8 * w))).toNat, none)
    | _ => ([], some .typeErr)
  | .intC w le, v =>
    match v with
    | .num n => (uintBytes le w (n % (2 ^ (8 * w))).toNat, none)
    | _ => ([], some .typeErr)
  | .bigUintC le, v =>
    match v with
    | .big n => (uintBytes le 8 ((n % (2 ^ 64)).toNat), none)
    | _ => ([], some .typeErr)
  | .bigIntC le, v =>
    match v with
    | .big n => (uintBytes le 8 ((n % (2 ^ 64)).toNat), none)
    | _ => ([], some .typeErr)
  | .boolC, v =>
    match v with
    | .bool b => ([if b then 1 else 0], none)
    | _ => ([], some .typeErr)
  | .utf8D mb, v =>
    match v with
    | .str bs =>
      match mb with
      | some m =>
        if bs.length > m then ([], some (.strTooLong bs.length))
        else (beBytes 4 bs.length ++ bs, none)
      | none => (beBytes 4 bs.length ++ bs, none)
    | _ => ([], some .typeErr)
  | .utf8F n, v =>
    match v with
    | .str bs =>
      if bs.length > n then ([], some .rangeErr)
      else (bs ++ List.replicate (n - bs.length) 0, none)
    | _ => ([], some .typeErr)
  | .bytesD mx, v =>
    match v with
    | .bytes bs =>
      match mx with
      | some m =>
        if bs.length > m then ([], some .binTooLong)
        else (beBytes 4 bs.length ++ bs, none)
      | none => (beBytes 4 bs.length ++ bs, none)
    | _ => ([], some .typeErr)
  | .bytesF n, v =>
    match v with
    | .bytes bs =>
      if bs.length > n then ([], some .rangeErr)
      else (bs ++ List.replicate (n - bs.length) 0, none)
    | _ => ([], some .typeErr)
  | .litC _, _ => ([], none)
  | .optC c, v =>
    if valEq v .undef then ([0], none)
    else eseq ([1], none) (encodeC c v)
  | .nullC c, v =>
    if valEq v .null then ([0], none)
    else eseq ([1], none) (encodeC c v)
  | .arrC c mx, v =>
    match v with
    | .arr vs =>
      match mx with
      | some m =>
        if vs.length > m then ([], some .arrTooLong)
        else eseq (beBytes 4 vs.length, none) (encodeVals c vs)
      | none => eseq (beBytes 4 vs.length, none) (encodeVals c vs)
    | _ => ([], some .typeErr)
  | .structC fields, v =>
    match v with
    | .obj fs => encodeFields fields fs
    | _ => ([], some .typeErr)
  | .tupleC cs, v =>
    match v with
    | .arr vs => encodeTup cs vs
    | _ => ([], some .typeErr)
  | .unionC variants, v =>
    match v with
    | .tagged t pv =>
      match h : variants.lookup t with
      | some c => eseq ([variants.findIdx (fun p => p.1 == t) % 256], none) (encodeC c pv)
      | none => ([], some (.badTag t))
    | _ => ([], some .typeErr)
  | .duC tag cands, v =>
    match v with
    | .obj fs =>
      if h : duIdx tag cands fs < cands.length then
        eseq ([duIdx tag cands fs % 256], none)
          (encodeFields (cands.get ⟨duIdx tag cands fs, h⟩) fs)
      else ([255], some .typeErr)
    | _ => ([], some .typeErr)
  | .envC c, v =>
    match encodeC c v with
    | (payload, none) =>
      (beBytes 4 HEADER ++ beBytes 2 VERSION ++ beBytes 4 payload.length ++ payload, none)
    | (_, some e) => (beBytes 4 HEADER ++ beBytes 2 VERSION, some e)
termination_by c _ => (sizeOf c, 0)
decreasing_by
  all_goals
    first
    | decreasing_tactic
    | (apply Prod.Lex.left
       have := sizeOf_lookup_lt _ _ _ h
       simp
       omega)
    | (apply Prod.Lex.left
       have := sizeOf_get_lt _ _ h
       simp
       simp at this
       omega)

def encodeVals (c : Code) : List Val → List Nat × Option Err
  | [] => ([], none)
  | v :: vs => eseq (encodeC c v) (encodeVals c vs)
termination_by vs => (sizeOf c, vs.length + 1)

def encodeFields : List (String × Code) → List (String × Val) → List Nat × Option Err
  | [], _ => ([], none)
  | (k, c) :: rest, fs => eseq (encodeC c ((fs.lookup k).getD .undef)) (encodeFields rest fs)
termination_by fields _ => (sizeOf fields, 0)

def encodeTup : List Code → List Val → List Nat × Option Err
  | [], _ => ([], none)
  | c :: cs, vs => eseq (encodeC c (vs.headD .undef)) (encodeTup cs vs.tail)
termination_by cs _ => (sizeOf cs, 0)

end

/-! ## Decoding

`decodeC c bs` consumes a prefix of `bs` and returns the decoded value
with the unread suffix, or the raised error with the suffix unread at
the throw (a read callback that throws, such as the fatal UTF-8
decoder, fires before the cursor advances). -/

mutual

def decodeC : Code → List Nat → Res Val
  | .uintC w le, bs =>
    match rdN w bs with
    | some (chunk, rest) => .ok (.num (uVal le chunk)) rest
    | none => .err .eof bs
  | .intC w le, bs =>
    match rdN w bs with
    | some (chunk, rest) => .ok (.num (sVal le w chunk)) rest
    | none => .err .eof bs
  | .bigUintC le, bs =>
    match rdN 8 bs with
    | some (chunk, rest) => .ok (.big (uVal le chunk)) rest
    | none => .err .eof bs
  | .bigIntC le, bs =>
    match rdN 8 bs with
    | some (chunk, rest) => .ok (.big (sVal le 8 chunk)) rest
    | none => .err .eof bs
  | .boolC, bs =>
    match rd1 bs with
    | some (b, rest) => .ok (.bool (b == 1)) rest
    | none => .err .eof bs
  | .utf8D mb, bs =>
    match rdU32 bs with
    | none => .err .eof bs
    | some (n, r1) =>
      match mb with
      | some m =>
        if n > m then .err (.strLenOver n m) r1
        else
          match rdN n r1 with
          | none => .err .eof r1
          | some (chunk, r2) =>
            if validUtf8 chunk then .ok (.str chunk) r2 else .err .invalidUtf8 r1
      | none =>
        match rdN n r1 with
        | none => .err .eof r1
        | some (chunk, r2) =>
          if validUtf8 chunk then .ok (.str chunk) r2 else .err .invalidUtf8 r1
  | .utf8F n, bs =>
    match rdN n bs with
    | none => .err .eof bs
    | some (chunk, r2) =>
      if validUtf8 chunk then .ok (.str (stripZeros chunk)) r2 else .err .invalidUtf8 bs
  | .bytesD mx, bs =>
    match rdU32 bs with
    | none => .err .eof bs
    | some (n, r1) =>
      match mx with
      | some m =>
        if n > m then .err (.binLenOver n m) r1
        else
          match rdN n r1 with
          | none => .err .eof r1
          | some (chunk, r2) => .ok (.bytes chunk) r2
      | none =>
        match rdN n r1 with
        | none => .err .eof r1
        | some (chunk, r2) => .ok (.bytes chunk) r2
  | .bytesF n, bs =>
    match rdN n bs with
    | none => .err .eof bs
    | some (chunk, r2) => .ok (.bytes chunk) r2
  | .litC v, bs => .ok v bs
  | .optC c, bs =>
    match rd1 bs with
    | none => .err .eof bs
    | some (flag, r1) => if flag == 0 then .ok .undef r1 else decodeC c r1
  | .nullC c, bs =>
    match rd1 bs with
    | none => .err .eof bs
    | some (flag, r1) => if flag == 0 then .ok .null r1 else decodeC c r1
  | .arrC c mx, bs =>
    match rdU32 bs with
    | none => .err .eof bs
    | some (n, r1) =>
      match mx with
      | some m =>
        if n > m then .err (.arrLenOver n m) r1
        else
          match decodeVals c n r1 with
          | .ok vs r2 => .ok (.arr vs) r2
          | .err e r2 => .err e r2
      | none =>
        match decodeVals c n r1 with
        | .ok vs r2 => .ok (.arr vs) r2
        | .err e r2 => .err e r2
  | .structC fields, bs =>
    match decodeFields fields bs with
    | .ok fs rest => .ok (.obj fs) rest
    | .err e rest => .err e rest
  | .tupleC cs, bs =>
    match decodeTup cs bs with
    | .ok vs rest => .ok (.arr vs) rest
    | .err e rest => .err e rest
  | .unionC variants, bs =>
    match rd1 bs with
    | none => .err .eof bs
    | some (i, r1) =>
      if hi : i < variants.length then
        match h : variants.lookup (variants.get ⟨i, hi⟩).1 with
        | some c =>
          match decodeC c r1 with
          | .ok pv r2 => .ok (.tagged (variants.get ⟨i, hi⟩).1 pv) r2
          | .err e r2 => .err e r2
        | none => .err .typeErr r1
      else .err (.badTagIndex i) r1
  | .duC tag cands, bs =>
    match rd1 bs with
    | none => .err .eof bs
    | some (i, r1) =>
      if hi : i < cands.length then
        match decodeFields (cands.get ⟨i, hi⟩) r1 with
        | .ok fs r2 => .ok (.obj fs) r2
        | .err e r2 => .err e r2
      else .err .typeErr r1
  | .envC c, bs =>
    match rdU32 bs with
    | none => .err .eof bs
    | some (h32, r1) =>
      if h32 = HEADER then
        match rdN 2 r1 with
        | none => .err .eof r1
        | some (vchunk, r2) =>
          if beNat vchunk = 1 then
            match rdU32 r2 with
            | none => .err .eof r2
            | some (n, r3) =>
              match rdN n r3 with
              | none => .err .eof r3
              | some (payload, r4) =>
                match decodeC c payload with
                | .ok v _ => .ok v r4
                | .err e _ => .err e r4
          else .err (.badVersion (beNat vchunk)) r2
      else .err .missingHeader r1
termination_by c _ => (sizeOf c, 0)
decreasing_by
  all_goals
    first
    | decreasing_tactic
    | (apply Prod.Lex.left
       have := sizeOf_lookup_lt _ _ _ h
       simp
       omega)
    | (apply Prod.Lex.left
       have := sizeOf_get_lt _ _ hi
       simp
       simp at this
       omega)

def decodeVals (c : Code) : Nat → List Nat → Res (List Val)
  | 0, bs => .ok [] bs
  | n + 1, bs =>
    match decodeC c bs with
    | .err e rest => .err e rest
    | .ok v rest =>
      match decodeVals c n rest with
      | .err e r2 => .err e r2
      | .ok vs r2 => .ok (v :: vs) r2
termination_by n _ => (sizeOf c, n + 1)

def decodeFields : List (String × Code) → List Nat → Res (List (String × Val))
  | [], bs => .ok [] bs
  | (k, c) :: rest, bs =>
    match decodeC c bs with
    | .err e r1 => .err e r1
    | .ok v r1 =>
      match decodeFields rest r1 with
      | .err e r2 => .err e r2
      | .ok fs r2 => .ok ((k, v) :: fs) r2
termination_by fields _ => (sizeOf fields, 0)

def decodeTup : List Code → List Nat → Res (List Val)
  | [], bs => .ok [] bs
  | c :: cs, bs =>
    match decodeC c bs with
    | .err e r1 => .err e r1
    | .ok v r1 =>
      match decodeTup cs r1 with
      | .err e r2 => .err e r2
      | .ok vs r2 => .ok (v :: vs) r2
termination_by cs _ => (sizeOf cs, 0)

end

/-! ## The size descriptor

`sizeC c v` is the codec's `s` field applied to the value: the constant
for fixed-size codecs, and the pure size function (which may throw on a
violated constraint) for dynamic ones.  It never touches a buffer. -/

mutual

def sizeC : Code → Val → Except Err Nat
  | .uintC w _, _ => .ok w
  | .intC w _, _ => .ok w
  | .bigUintC _, _ => .ok 8
  | .bigIntC _, _ => .ok 8
  | .boolC, _ => .ok 1
  | .utf8D mb, v =>
    match v with
    | .str bs =>
      match mb with
      | some m =>
        if bs.length > m then .error (.strTooLong bs.length) else .ok (4 + bs.length)
      | none => .ok (4 + bs.length)
    | _ => .error .typeErr
  | .utf8F n, _ => .ok n
  | .bytesD mx, v =>
    match v with
    | .bytes bs =>
      match mx with
      | some m => if bs.length > m then .error .binTooLong else .ok (4 + bs.length)
      | none => .ok (4 + bs.length)
    | _ => .error .typeErr
  | .bytesF n, _ => .ok n
  | .litC _, _ => .ok 0
  | .optC c, v =>
    if valEq v .undef then .ok 1
    else
      match sizeC c v with
      | .ok s => .ok (1 + s)
      | .error e => .error e
  | .nullC c, v =>
    if valEq v .null then .ok 1
    else
      match sizeC c v with
      | .ok s => .ok (1 + s)
      | .error e => .error e
  | .arrC c mx, v =>
    match v with
    | .arr vs =>
      match mx with
      | some m =>
        if vs.length > m then .error .arrTooLong
        else
          match sizeVals c vs with
          | .ok s => .ok (4 + s)
          | .error e => .error e
      | none =>
        match sizeVals c vs with
        | .ok s => .ok (4 + s)
        | .error e => .error e
    | _ => .error .typeErr
  | .structC fields, v =>
    match v with
    | .obj fs => sizeFields fields fs
    | _ => .error .typeErr
  | .tupleC cs, v =>
    match v with
    | .arr vs => sizeTup cs vs
    | _ => .error .typeErr
  | .unionC variants, v =>
    match v with
    | .tagged t pv =>
      match h : variants.lookup t with
      | some c =>
        match sizeC c pv with
        | .ok s => .ok (1 + s)
        | .error e => .error e
      | none => .error .typeErr
    | _ => .error .typeErr
  | .duC tag cands, v =>
    match v with
    | .obj fs =>
      if h : duIdx tag cands fs < cands.length then
        match sizeFields (cands.get ⟨duIdx tag cands fs, h⟩) fs with
        | .ok s => .ok (1 + s)
        | .error e => .error e
      else .error .typeErr
    | _ => .error .typeErr
  | .envC c, v =>
    match sizeC c v with
    | .ok s => .ok (4 + 2 + 4 + s)
    | .error e => .error e
termination_by c _ => (sizeOf c, 0)
decreasing_by
  all_goals
    first
    | decreasing_tactic
    | (apply Prod.Lex.left
       have := sizeOf_lookup_lt _ _ _ h
       simp
       omega)
    | (apply Prod.Lex.left
       have := sizeOf_get_lt _ _ h
       simp
       simp at this
       omega)

def sizeVals (c : Code) : List Val → Except Err Nat
  | [] => .ok 0
  | v :: vs =>
    match sizeC c v with
    | .ok s =>
      match sizeVals c vs with
      | .ok t => .ok (s + t)
      | .error e => .error e
    | .error e => .error e
termination_by vs => (sizeOf c, vs.length + 1)

def sizeFields : List (String × Code) → List (String × Val) → Except Err Nat
  | [], _ => .ok 0
  | (k, c) :: rest, fs =>
    match sizeC c ((fs.lookup k).getD .undef) with
    | .ok s =>
      match sizeFields rest fs with
      | .ok t => .ok (s + t)
      | .error e => .error e
    | .error e => .error e
termination_by fields _ => (sizeOf fields, 0)

def sizeTup : List Code → List Val → Except Err Nat
  | _, [] => .ok 0
  | c :: cs, v :: vs =>
    match sizeC c v with
    | .ok s =>
      match sizeTup cs vs with
      | .ok t => .ok (s + t)
      | .error e => .error e
    | .error e => .error e
  | [], _ :: _ => .error .typeErr
termination_by cs _ => (sizeOf cs, 0)

end

/-- Key list of a struct shape is duplicate-free: every shape built by
a JavaScript object literal has this property. -/
def keysNodup (fields : List (String × Code)) : Bool :=
  decide ((fields.map Prod.fst).Nodup)

/-! ## Encodable values

`encodable c v` is the domain of the round-trip law: `v` has the
runtime type the codec's TypeScript signature prescribes, integer
values are in range of their width, strings are valid UTF-8 with no
trailing NUL for fixed widths, fixed byte arrays have exactly the
configured width, lengths fit the 32-bit count prefixes and respect
the configured maxima, objects carry exactly the declared keys in
declaration order, and union tags resolve to a declared variant index
that fits one byte. -/

mutual

def encodable : Code → Val → Bool
  | .uintC w _, v =>
    match v with
    | .num n => decide (0 ≤ n ∧ n < 2 ^ (8 * w))
    | _ => false
  | .intC w _, v =>
    match v with
    | .num n => decide (1 ≤ w ∧ -(2 ^ (8 * w - 1)) ≤ n ∧ n < 2 ^ (8 * w - 1))
    | _ => false
  | .bigUintC _, v =>
    match v with
    | .big n => decide (0 ≤ n ∧ n < 2 ^ 64)
    | _ => false
  | .bigIntC _, v =>
    match v with
    | .big n => decide (-(2 ^ 63) ≤ n ∧ n < 2 ^ 63)
    | _ => false
  | .boolC, v =>
    match v with
    | .bool _ => true
    | _ => false
  | .utf8D mb, v =>
    match v with
    | .str bs =>
      validUtf8 bs && decide (bs.length < 2 ^ 32) &&
        (match mb with
        | some m => decide (bs.length ≤ m)
        | none => true)
    | _ => false
  | .utf8F n, v =>
    match v with
    | .str bs => validUtf8 bs && decide (bs.length ≤ n) && noTrailZero bs
    | _ => false
  | .bytesD mx, v =>
    match v with
    | .bytes bs =>
      decide (bs.length < 2 ^ 32) &&
        (match mx with
        | some m => decide (bs.length ≤ m)
        | none => true)
    | _ => false
  | .bytesF n, v =>
    match v with
    | .bytes bs => decide (bs.length = n)
    | _ => false
  | .litC v0, v => valEq v v0
  | .optC c, v => if valEq v .undef then true else encodable c v
  | .nullC c, v => if valEq v .null then true else encodable c v
  | .arrC c mx, v =>
    match v with
    | .arr vs =>
      decide (vs.length < 2 ^ 32) &&
        (match mx with
        | some m => decide (vs.length ≤ m)
        | none => true) &&
        encodableVals c vs
    | _ => false
  | .structC fields, v =>
    match v with
    | .obj fs => keysNodup fields && encodableFields fields fs
    | _ => false
  | .tupleC cs, v =>
    match v with
    | .arr vs => encodableTup cs vs
    | _ => false
  | .unionC variants, v =>
    match v with
    | .tagged t pv =>
      match h : variants.lookup t with
      | some c => decide (variants.findIdx (fun p => p.1 == t) < 256) && encodable c pv
      | none => false
    | _ => false
  | .duC tag cands, v =>
    match v with
    | .obj fs =>
      if h : duIdx tag cands fs < cands.length then
        decide (duIdx tag cands fs < 256) &&
          keysNodup (cands.get ⟨duIdx tag cands fs, h⟩) &&
          encodableFields (cands.get ⟨duIdx tag cands fs, h⟩) fs
      else false
    | _ => false
  | .envC c, v => encodable c v && decide ((encodeC c v).1.length < 2 ^ 32)
termination_by c _ => (sizeOf c, 0)
decreasing_by
  all_goals
    first
    | decreasing_tactic
    | (apply Prod.Lex.left
       have := sizeOf_lookup_lt _ _ _ h
       simp
       omega)
    | (apply Prod.Lex.left
       have := sizeOf_get_lt _ _ h
       simp
       simp at this
       omega)

def encodableVals (c : Code) : List Val → Bool
  | [] => true
  | v :: vs => encodable c v && encodableVals c vs
termination_by vs => (sizeOf c, vs.length + 1)

def encodableFields : List (String × Code) → List (String × Val) → Bool
  | [], [] => true
  | (k, c) :: rest, (l, v) :: fs => k == l && encodable c v && encodableFields rest fs
  | _, _ => false
termination_by fields _ => (sizeOf fields, 0)

def encodableTup : List Code → List Val → Bool
  | [], [] => true
  | c :: cs, v :: vs => encodable c v && encodableTup cs vs
  | _, _ => false
termination_by cs _ => (sizeOf cs, 0)

end

/-! ## Base lemmas for the round-trip induction -/

theorem rdN_exact (xs ys : List Nat) : rdN xs.length (xs ++ ys) = some (xs, ys) := by
  unfold rdN
  rw [if_pos (by simp)]
  simp

theorem rdU32_exact (n : Nat) (ys : List Nat) (h : n < 2 ^ 32) :
    rdU32 (beBytes 4 n ++ ys) = some (n, ys) := by
  have hr := rdN_exact (beBytes 4 n) ys
  rw [length_beBytes] at hr
  unfold rdU32
  rw [hr]
  have h4 : (256 : Nat) ^ 4 = 2 ^ 32 := by norm_num
  simp only
  rw [beNat_beBytes 4 n (by omega)]

theorem eseq_ok (bs : List Nat) (p : List Nat × Option Err) :
    eseq (bs, none) p = (bs ++ p.1, p.2) := by
  match p with
  | (cs, r) => rfl

theorem lookup_of_mem_nodup (fs : List (String × Val)) (k : String) (v : Val)
    (hnd : (fs.map Prod.fst).Nodup) (hm : (k, v) ∈ fs) : fs.lookup k = some v := by
  induction fs with
  | nil => cases hm
  | cons p rest ih =>
    match p with
    | (l, w) =>
      rw [List.map_cons, List.nodup_cons] at hnd
      rcases List.mem_cons.mp hm with he | hm2
      · cases he
        rw [List.lookup]
        simp
      · have hk : k ≠ l := by
          intro he
          subst he
          exact hnd.1 (List.mem_map.mpr ⟨(k, v), hm2, rfl⟩)
        rw [List.lookup]
        have : (k == l) = false := by simpa using hk
        rw [this]
        exact ih hnd.2 hm2

theorem encodableFields_keys (fields : List (String × Code)) (fs : List (String × Val))
    (h : encodableFields fields fs = true) : fs.map Prod.fst = fields.map Prod.fst := by
  induction fields generalizing fs with
  | nil =>
    match fs with
    | [] => rfl
    | _ :: _ => rw [encodableFields.eq_def] at h; simp at h
  | cons p rest ih =>
    match p, fs with
    | (k, c), [] => rw [encodableFields.eq_def] at h; simp at h
    | (k, c), (l, v) :: fs2 =>
      rw [encodableFields] at h
      simp only [Bool.and_eq_true, beq_iff_eq] at h
      simp only [List.map_cons]
      rw [h.1.1, ih fs2 h.2]

theorem lookup_findIdx_get (l : List (String × Code)) (t : String) (c : Code)
    (h : l.lookup t = some c) :
    ∃ hi : l.findIdx (fun p => p.1 == t) < l.length,
      l.get ⟨l.findIdx (fun p => p.1 == t), hi⟩ = (t, c) := by
  induction l with
  | nil => simp [List.lookup] at h
  | cons p rest ih =>
    match p with
    | (k, b) =>
      rw [List.lookup] at h
      by_cases he : t = k
      · subst he
        rw [beq_self_eq_true] at h
        simp only at h
        injection h with hbc
        subst hbc
        have hfi : List.findIdx (fun p => p.1 == t) ((t, b) :: rest) = 0 := by
          rw [List.findIdx_cons]
          simp
        refine ⟨by rw [hfi]; simp, ?_⟩
        have : (⟨List.findIdx (fun p => p.1 == t) ((t, b) :: rest), by rw [hfi]; simp⟩ :
            Fin (((t, b) :: rest).length)) = ⟨0, by simp⟩ := by
          simp [hfi]
        rw [this]
        rfl
      · have hf : (t == k) = false := by simpa using he
        rw [hf] at h
        simp only at h
        obtain ⟨hi, hget⟩ := ih h
        have hcond : ((k, b).1 == t) = false := by
          simp only [beq_eq_false_iff_ne]
          exact fun hh => he hh.symm
        have hfi : List.findIdx (fun p => p.1 == t) ((k, b) :: rest) =
            List.findIdx (fun p => p.1 == t) rest + 1 := by
          rw [List.findIdx_cons, hcond]
          rfl
        refine ⟨by rw [hfi]; simpa using hi, ?_⟩
        have hidx : (⟨List.findIdx (fun p => p.1 == t) ((k, b) :: rest),
            by rw [hfi]; simpa using hi⟩ :
            Fin (((k, b) :: rest).length)) =
            ⟨List.findIdx (fun p => p.1 == t) rest + 1, by simpa using hi⟩ := by
          simp [hfi]
        rw [hidx]
        simpa using hget

theorem rdN_len (w : Nat) (chunk suf : List Nat) (h : chunk.length = w) :
    rdN w (chunk ++ suf) = some (chunk, suf) := by
  subst h
  exact rdN_exact chunk suf

theorem eseq_expand (p q : List Nat × Option Err) (hp : p.2 = none) :
    eseq p q = (p.1 ++ q.1, q.2) := by
  match p, hp with
  | (bs, _), hp =>
    simp only at hp
    subst hp
    match q with
    | (cs, r) => rfl

theorem enc_eta (c : Code) (v : Val) (h : (encodeC c v).2 = none) :
    encodeC c v = ((encodeC c v).1, none) := by
  match hp : encodeC c v with
  | (bs, r) =>
    rw [hp] at h
    simp only at h
    subst h
    rfl

/-- Combined induction payload: encoding succeeds, the size descriptor
equals the number of bytes encoding produces, and decoding the encoded
bytes followed by any suffix yields the value and that suffix. -/
def Good (c : Code) (v : Val) : Prop :=
  (encodeC c v).2 = none ∧
  sizeC c v = .ok (encodeC c v).1.length ∧
  ∀ suf, decodeC c ((encodeC c v).1 ++ suf) = .ok v suf

theorem good_uintC (w : Nat) (le : Bool) (v : Val)
    (hv : encodable (.uintC w le) v = true) : Good (.uintC w le) v := by
  cases v <;> rw [encodable.eq_def] at hv <;>
    simp only [Bool.false_eq_true, decide_eq_true_eq] at hv
  case num m =>
  refine ⟨?_, ?_, fun suf => ?_⟩
  · rw [encodeC.eq_def]
  · rw [encodeC.eq_def, sizeC.eq_def]
    simp
  · rw [encodeC.eq_def, decodeC.eq_def]
    simp only
    rw [rdN_len w _ suf (by simp)]
    simp only
    have hu := uVal_roundtrip le w m hv.1 hv.2
    rw [hu]

theorem good_intC (w : Nat) (le : Bool) (v : Val)
    (hv : encodable (.intC w le) v = true) : Good (.intC w le) v := by
  cases v <;> rw [encodable.eq_def] at hv <;>
    simp only [Bool.false_eq_true, decide_eq_true_eq] at hv
  case num m =>
  refine ⟨?_, ?_, fun suf => ?_⟩
  · rw [encodeC.eq_def]
  · rw [encodeC.eq_def, sizeC.eq_def]
    simp
  · rw [encodeC.eq_def, decodeC.eq_def]
    simp only
    rw [rdN_len w _ suf (by simp)]
    simp only
    rw [sVal_roundtrip le w m hv.1 hv.2.1 hv.2.2]

theorem good_bigUintC (le : Bool) (v : Val)
    (hv : encodable (.bigUintC le) v = true) : Good (.bigUintC le) v := by
  cases v <;> rw [encodable.eq_def] at hv <;>
    simp only [Bool.false_eq_true, decide_eq_true_eq] at hv
  case big m =>
  refine ⟨?_, ?_, fun suf => ?_⟩
  · rw [encodeC.eq_def]
  · rw [encodeC.eq_def, sizeC.eq_def]
    simp
  · rw [encodeC.eq_def, decodeC.eq_def]
    simp only
    rw [rdN_len 8 _ suf (by simp)]
    simp only
    have hu := uVal_roundtrip le 8 m hv.1 (by norm_num at hv ⊢; omega)
    norm_num at hu ⊢
    rw [hu]

theorem good_bigIntC (le : Bool) (v : Val)
    (hv : encodable (.bigIntC le) v = true) : Good (.bigIntC le) v := by
  cases v <;> rw [encodable.eq_def] at hv <;>
    simp only [Bool.false_eq_true, decide_eq_true_eq] at hv
  case big m =>
  refine ⟨?_, ?_, fun suf => ?_⟩
  · rw [encodeC.eq_def]
  · rw [encodeC.eq_def, sizeC.eq_def]
    simp
  · rw [encodeC.eq_def, decodeC.eq_def]
    simp only
    rw [rdN_len 8 _ suf (by simp)]
    simp only
    have hs := sVal_roundtrip le 8 m (by norm_num)
      (by norm_num at hv ⊢; omega) (by norm_num at hv ⊢; omega)
    norm_num at hs ⊢
    rw [hs]

theorem good_boolC (v : Val) (hv : encodable .boolC v = true) : Good .boolC v := by
  cases v <;> rw [encodable.eq_def] at hv <;>
    simp only [Bool.false_eq_true, decide_eq_true_eq] at hv
  case bool b =>
  refine ⟨?_, ?_, fun suf => ?_⟩
  · rw [encodeC.eq_def]
  · rw [encodeC.eq_def, sizeC.eq_def]
    simp
  · rw [encodeC.eq_def, decodeC.eq_def]
    simp only [rd1]
    cases b <;> simp

theorem good_utf8D (mb : Option Nat) (v : Val)
    (hv : encodable (.utf8D mb) v = true) : Good (.utf8D mb) v := by
  cases v <;> rw [encodable.eq_def] at hv <;>
    simp only [Bool.false_eq_true, Bool.and_eq_true, decide_eq_true_eq] at hv
  case str bs =>
  obtain ⟨⟨hval, hlen⟩, hmax⟩ := hv
  have henc : encodeC (.utf8D mb) (.str bs) = (beBytes 4 bs.length ++ bs, none) := by
    rw [encodeC.eq_def]
    cases mb with
    | none => rfl
    | some m =>
      simp only
      rw [if_neg (by simp only [decide_eq_true_eq] at hmax; omega)]
  have hsz : sizeC (.utf8D mb) (.str bs) = .ok (4 + bs.length) := by
    rw [sizeC.eq_def]
    cases mb with
    | none => rfl
    | some m =>
      simp only
      rw [if_neg (by simp only [decide_eq_true_eq] at hmax; omega)]
  refine ⟨by rw [henc], by rw [henc, hsz]; simp, fun suf => ?_⟩
  rw [henc, decodeC.eq_def]
  simp only [List.append_assoc]
  rw [rdU32_exact bs.length (bs ++ suf) hlen]
  simp only
  have hrd : rdN bs.length (bs ++ suf) = some (bs, suf) := rdN_exact bs suf
  cases mb with
  | none =>
    simp only [hrd]
    rw [if_pos hval]
  | some m =>
    simp only
    rw [if_neg (by simp only [decide_eq_true_eq] at hmax; omega)]
    simp only [hrd]
    rw [if_pos hval]

theorem good_utf8F (n : Nat) (v : Val)
    (hv : encodable (.utf8F n) v = true) : Good (.utf8F n) v := by
  cases v <;> rw [encodable.eq_def] at hv <;>
    simp only [Bool.false_eq_true, Bool.and_eq_true, decide_eq_true_eq] at hv
  case str bs =>
  obtain ⟨⟨hval, hlen⟩, htz⟩ := hv
  have henc : encodeC (.utf8F n) (.str bs) =
      (bs ++ List.replicate (n - bs.length) 0, none) := by
    rw [encodeC.eq_def]
    simp only
    rw [if_neg (by omega)]
  have hplen : (bs ++ List.replicate (n - bs.length) 0).length = n := by
    simp
    omega
  refine ⟨by rw [henc], ?_, fun suf => ?_⟩
  · rw [henc, sizeC.eq_def, hplen]
  · rw [henc, decodeC.eq_def]
    simp only
    rw [rdN_len n _ suf hplen]
    simp only
    rw [if_pos (validUtf8_append _ _ hval (validUtf8_replicate_zero _))]
    rw [stripZeros_pad bs _ htz]

theorem good_bytesD (mx : Option Nat) (v : Val)
    (hv : encodable (.bytesD mx) v = true) : Good (.bytesD mx) v := by
  cases v <;> rw [encodable.eq_def] at hv <;>
    simp only [Bool.false_eq_true, Bool.and_eq_true, decide_eq_true_eq] at hv
  case bytes bs =>
  obtain ⟨hlen, hmax⟩ := hv
  have henc : encodeC (.bytesD mx) (.bytes bs) = (beBytes 4 bs.length ++ bs, none) := by
    rw [encodeC.eq_def]
    cases mx with
    | none => rfl
    | some m =>
      simp only
      rw [if_neg (by simp only [decide_eq_true_eq] at hmax; omega)]
  have hsz : sizeC (.bytesD mx) (.bytes bs) = .ok (4 + bs.length) := by
    rw [sizeC.eq_def]
    cases mx with
    | none => rfl
    | some m =>
      simp only
      rw [if_neg (by simp only [decide_eq_true_eq] at hmax; omega)]
  refine ⟨by rw [henc], by rw [henc, hsz]; simp, fun suf => ?_⟩
  rw [henc, decodeC.eq_def]
  simp only [List.append_assoc]
  rw [rdU32_exact bs.length (bs ++ suf) hlen]
  simp only
  have hrd : rdN bs.length (bs ++ suf) = some (bs, suf) := rdN_exact bs suf
  cases mx with
  | none => simp only [hrd]
  | some m =>
    simp only
    rw [if_neg (by simp only [decide_eq_true_eq] at hmax; omega)]
    simp only [hrd]

theorem good_bytesF (n : Nat) (v : Val)
    (hv : encodable (.bytesF n) v = true) : Good (.bytesF n) v := by
  cases v <;> rw [encodable.eq_def] at hv <;>
    simp only [Bool.false_eq_true, Bool.and_eq_true, decide_eq_true_eq] at hv
  case bytes bs =>
  have henc : encodeC (.bytesF n) (.bytes bs) =
      (bs ++ List.replicate (n - bs.length) 0, none) := by
    rw [encodeC.eq_def]
    simp only
    rw [if_neg (by omega)]
  have hrep : List.replicate (n - bs.length) (0 : Nat) = [] := by
    rw [hv]
    simp
  refine ⟨by rw [henc], ?_, fun suf => ?_⟩
  · rw [henc, sizeC.eq_def, hrep]
    simp [hv]
  · rw [henc, hrep, decodeC.eq_def]
    simp only [List.append_nil]
    rw [← hv, rdN_exact]

theorem good_litC (v0 v : Val) (hv : encodable (.litC v0) v = true) : Good (.litC v0) v := by
  rw [encodable.eq_def] at hv
  have he : v = v0 := valEq_sound v v0 hv
  subst he
  refine ⟨by rw [encodeC.eq_def], ?_, fun suf => ?_⟩
  · rw [encodeC.eq_def, sizeC.eq_def]
    rfl
  · rw [encodeC.eq_def, decodeC.eq_def]
    rfl

theorem valEq_undef_iff (v : Val) : valEq v .undef = true ↔ v = .undef := by
  constructor
  · exact valEq_sound v .undef
  · intro h
    subst h
    rw [valEq.eq_def]

theorem valEq_null_iff (v : Val) : valEq v .null = true ↔ v = .null := by
  constructor
  · exact valEq_sound v .null
  · intro h
    subst h
    rw [valEq.eq_def]

theorem good_optC (c : Code) (v : Val)
    (IH : ∀ v', encodable c v' = true → Good c v')
    (hv : encodable (.optC c) v = true) : Good (.optC c) v := by
  rw [encodable.eq_def] at hv
  simp only at hv
  by_cases hu : valEq v Val.undef = true
  · have hue : v = .undef := (valEq_undef_iff v).mp hu
    subst hue
    refine ⟨?_, ?_, fun suf => ?_⟩
    · rw [encodeC.eq_def]
      simp only [hu]
      rw [if_pos trivial]
    · rw [encodeC.eq_def, sizeC.eq_def]
      simp only [hu]
      rw [if_pos trivial, if_pos trivial]
      rfl
    · rw [encodeC.eq_def]
      simp only [hu]
      rw [if_pos trivial, decodeC.eq_def]
      rfl
  · have hu' : valEq v Val.undef = false := by
      cases hb : valEq v Val.undef
      · rfl
      · exact absurd hb hu
    simp only [hu', Bool.false_eq_true, if_false] at hv
    obtain ⟨e1, e2, e3⟩ := IH v hv
    refine ⟨?_, ?_, fun suf => ?_⟩
    · rw [encodeC.eq_def]
      simp only [hu', Bool.false_eq_true, if_false]
      rw [eseq_ok]
      exact e1
    · rw [encodeC.eq_def, sizeC.eq_def]
      simp only [hu', Bool.false_eq_true, if_false]
      rw [eseq_ok, e2]
      simp only [List.singleton_append, List.length_cons]
      rw [Nat.add_comm]
    · rw [encodeC.eq_def]
      simp only [hu', Bool.false_eq_true, if_false]
      rw [eseq_ok, decodeC.eq_def]
      simp only [List.singleton_append, List.cons_append, rd1]
      simp only [show ((1 : Nat) == 0) = false from rfl, Bool.false_eq_true, if_false]
      exact e3 suf

theorem good_nullC (c : Code) (v : Val)
    (IH : ∀ v', encodable c v' = true → Good c v')
    (hv : encodable (.nullC c) v = true) : Good (.nullC c) v := by
  rw [encodable.eq_def] at hv
  simp only at hv
  by_cases hu : valEq v Val.null = true
  · have hue : v = .null := (valEq_null_iff v).mp hu
    subst hue
    refine ⟨?_, ?_, fun suf => ?_⟩
    · rw [encodeC.eq_def]
      simp only [hu]
      rw [if_pos trivial]
    · rw [encodeC.eq_def, sizeC.eq_def]
      simp only [hu]
      rw [if_pos trivial, if_pos trivial]
      rfl
    · rw [encodeC.eq_def]
      simp only [hu]
      rw [if_pos trivial, decodeC.eq_def]
      rfl
  · have hu' : valEq v Val.null = false := by
      cases hb : valEq v Val.null
      · rfl
      · exact absurd hb hu
    simp only [hu', Bool.false_eq_true, if_false] at hv
    obtain ⟨e1, e2, e3⟩ := IH v hv
    refine ⟨?_, ?_, fun suf => ?_⟩
    · rw [encodeC.eq_def]
      simp only [hu', Bool.false_eq_true, if_false]
      rw [eseq_ok]
      exact e1
    · rw [encodeC.eq_def, sizeC.eq_def]
      simp only [hu', Bool.false_eq_true, if_false]
      rw [eseq_ok, e2]
      simp only [List.singleton_append, List.length_cons]
      rw [Nat.add_comm]
    · rw [encodeC.eq_def]
      simp only [hu', Bool.false_eq_true, if_false]
      rw [eseq_ok, decodeC.eq_def]
      simp only [List.singleton_append, List.cons_append, rd1]
      simp only [show ((1 : Nat) == 0) = false from rfl, Bool.false_eq_true, if_false]
      exact e3 suf

theorem main_vals (c : Code) (IH : ∀ v, encodable c v = true → Good c v)
    (vs : List Val) (hv : encodableVals c vs = true) :
    (encodeVals c vs).2 = none ∧
    sizeVals c vs = .ok (encodeVals c vs).1.length ∧
    ∀ suf, decodeVals c vs.length ((encodeVals c vs).1 ++ suf) = .ok vs suf := by
  induction vs with
  | nil =>
    refine ⟨by rw [encodeVals], ?_, fun suf => ?_⟩
    · rw [encodeVals, sizeVals]
      rfl
    · rw [encodeVals]
      simp only [List.length_nil]
      rw [decodeVals]
      rfl
  | cons v vs ih =>
    rw [encodableVals] at hv
    simp only [Bool.and_eq_true] at hv
    obtain ⟨e1, e2, e3⟩ := IH v hv.1
    obtain ⟨g1, g2, g3⟩ := ih hv.2
    have henc : encodeVals c (v :: vs) =
        ((encodeC c v).1 ++ (encodeVals c vs).1, (encodeVals c vs).2) := by
      rw [encodeVals, enc_eta c v e1, eseq_ok]
    refine ⟨by rw [henc]; exact g1, ?_, fun suf => ?_⟩
    · rw [henc, sizeVals, e2, g2]
      simp only
      simp
    · rw [henc]
      simp only [List.length_cons, List.append_assoc]
      rw [decodeVals, e3]
      simp only
      rw [g3]

theorem main_fields (fields : List (String × Code))
    (IH : ∀ k c, (k, c) ∈ fields → ∀ v, encodable c v = true → Good c v)
    (fs fsAll : List (String × Val))
    (he : encodableFields fields fs = true)
    (hl : ∀ k v, (k, v) ∈ fs → fsAll.lookup k = some v) :
    (encodeFields fields fsAll).2 = none ∧
    sizeFields fields fsAll = .ok (encodeFields fields fsAll).1.length ∧
    ∀ suf, decodeFields fields ((encodeFields fields fsAll).1 ++ suf) = .ok fs suf := by
  induction fields generalizing fs with
  | nil =>
    match fs, he with
    | [], _ =>
      refine ⟨by rw [encodeFields], ?_, fun suf => ?_⟩
      · rw [encodeFields, sizeFields]
        rfl
      · rw [encodeFields, decodeFields]
        rfl
    | (_, _) :: _, he => rw [encodableFields.eq_def] at he; simp at he
  | cons p rest ih =>
    match p, fs, he with
    | (k, c), [], he => rw [encodableFields.eq_def] at he; simp at he
    | (k, c), (l, v) :: fs2, he =>
      rw [encodableFields] at he
      simp only [Bool.and_eq_true, beq_iff_eq] at he
      obtain ⟨⟨hkl, hev⟩, he2⟩ := he
      subst hkl
      have hlk : fsAll.lookup k = some v := hl k v (List.mem_cons_self _ _)
      obtain ⟨e1, e2, e3⟩ := IH k c (List.mem_cons_self _ _) v hev
      obtain ⟨g1, g2, g3⟩ := ih (fun k' c' hm => IH k' c' (List.mem_cons_of_mem _ hm)) fs2 he2
        (fun k' v' hm => hl k' v' (List.mem_cons_of_mem _ hm))
      have henc : encodeFields ((k, c) :: rest) fsAll =
          ((encodeC c v).1 ++ (encodeFields rest fsAll).1, (encodeFields rest fsAll).2) := by
        rw [encodeFields, hlk]
        simp only [Option.getD_some]
        rw [enc_eta c v e1, eseq_ok]
      refine ⟨by rw [henc]; exact g1, ?_, fun suf => ?_⟩
      · rw [henc, sizeFields, hlk]
        simp only [Option.getD_some]
        rw [e2, g2]
        simp only
        simp
      · rw [henc]
        simp only [List.append_assoc]
        rw [decodeFields, e3]
        simp only
        rw [g3]

theorem main_tup (cs : List Code)
    (IH : ∀ c, c ∈ cs → ∀ v, encodable c v = true → Good c v)
    (vs : List Val) (hv : encodableTup cs vs = true) :
    (encodeTup cs vs).2 = none ∧
    sizeTup cs vs = .ok (encodeTup cs vs).1.length ∧
    ∀ suf, decodeTup cs ((encodeTup cs vs).1 ++ suf) = .ok vs suf := by
  induction cs generalizing vs with
  | nil =>
    match vs, hv with
    | [], _ =>
      refine ⟨by rw [encodeTup], ?_, fun suf => ?_⟩
      · rw [encodeTup, sizeTup]
        rfl
      · rw [encodeTup, decodeTup]
        rfl
    | _ :: _, hv => rw [encodableTup.eq_def] at hv; simp at hv
  | cons c cs ih =>
    match vs, hv with
    | [], hv => rw [encodableTup.eq_def] at hv; simp at hv
    | v :: vs2, hv =>
      rw [encodableTup] at hv
      simp only [Bool.and_eq_true] at hv
      obtain ⟨e1, e2, e3⟩ := IH c (List.mem_cons_self _ _) v hv.1
      obtain ⟨g1, g2, g3⟩ := ih (fun c' hm => IH c' (List.mem_cons_of_mem _ hm)) vs2 hv.2
      have henc : encodeTup (c :: cs) (v :: vs2) =
          ((encodeC c v).1 ++ (encodeTup cs vs2).1, (encodeTup cs vs2).2) := by
        rw [encodeTup]
        simp only [List.headD_cons, List.tail_cons]
        rw [enc_eta c v e1, eseq_ok]
      refine ⟨by rw [henc]; exact g1, ?_, fun suf => ?_⟩
      · rw [henc, sizeTup, e2, g2]
        simp only
        simp
      · rw [henc]
        simp only [List.append_assoc]
        rw [decodeTup, e3]
        simp only
        rw [g3]

theorem good_arrC (c : Code) (mx : Option Nat) (v : Val)
    (IH : ∀ v', encodable c v' = true → Good c v')
    (hv : encodable (.arrC c mx) v = true) : Good (.arrC c mx) v := by
  cases v <;> rw [encodable.eq_def] at hv <;>
    simp only [Bool.false_eq_true, Bool.and_eq_true, decide_eq_true_eq] at hv
  case arr vs =>
  obtain ⟨⟨hlen, hmaxm⟩, hev⟩ := hv
  obtain ⟨g1, g2, g3⟩ := main_vals c IH vs hev
  cases mx with
  | none =>
    have henc : encodeC (.arrC c none) (.arr vs) =
        (beBytes 4 vs.length ++ (encodeVals c vs).1, none) := by
      rw [encodeC.eq_def]
      simp only
      rw [eseq_ok, g1]
    refine ⟨by rw [henc], ?_, fun suf => ?_⟩
    · rw [henc, sizeC.eq_def]
      simp only
      rw [g2]
      simp
    · rw [henc, decodeC.eq_def]
      simp only [List.append_assoc]
      rw [rdU32_exact vs.length _ hlen]
      simp only
      rw [g3 suf]
  | some m =>
    have hm : vs.length ≤ m := by simpa [decide_eq_true_eq] using hmaxm
    have henc : encodeC (.arrC c (some m)) (.arr vs) =
        (beBytes 4 vs.length ++ (encodeVals c vs).1, none) := by
      rw [encodeC.eq_def]
      simp only
      rw [if_neg (by omega), eseq_ok, g1]
    refine ⟨by rw [henc], ?_, fun suf => ?_⟩
    · rw [henc, sizeC.eq_def]
      simp only
      rw [if_neg (by omega), g2]
      simp
    · rw [henc, decodeC.eq_def]
      simp only [List.append_assoc]
      rw [rdU32_exact vs.length _ hlen]
      simp only
      rw [if_neg (by omega)]
      rw [g3 suf]

theorem good_structC (fields : List (String × Code)) (v : Val)
    (IH : ∀ k c, (k, c) ∈ fields → ∀ v', encodable c v' = true → Good c v')
    (hv : encodable (.structC fields) v = true) : Good (.structC fields) v := by
  cases v <;> rw [encodable.eq_def] at hv <;>
    simp only [Bool.false_eq_true, Bool.and_eq_true, decide_eq_true_eq] at hv
  case obj fs =>
  obtain ⟨hnd, hef⟩ := hv
  have hndv : (fs.map Prod.fst).Nodup := by
    rw [encodableFields_keys fields fs hef]
    unfold keysNodup at hnd
    exact of_decide_eq_true hnd
  obtain ⟨g1, g2, g3⟩ := main_fields fields IH fs fs hef
    (fun k v hm => lookup_of_mem_nodup fs k v hndv hm)
  refine ⟨?_, ?_, fun suf => ?_⟩
  · rw [encodeC.eq_def]
    exact g1
  · rw [encodeC.eq_def, sizeC.eq_def]
    exact g2
  · rw [encodeC.eq_def, decodeC.eq_def]
    simp only
    rw [g3 suf]

theorem good_tupleC (cs : List Code) (v : Val)
    (IH : ∀ c, c ∈ cs → ∀ v', encodable c v' = true → Good c v')
    (hv : encodable (.tupleC cs) v = true) : Good (.tupleC cs) v := by
  cases v <;> rw [encodable.eq_def] at hv <;>
    simp only [Bool.false_eq_true, Bool.and_eq_true, decide_eq_true_eq] at hv
  case arr vs =>
  obtain ⟨g1, g2, g3⟩ := main_tup cs IH vs hv
  refine ⟨?_, ?_, fun suf => ?_⟩
  · rw [encodeC.eq_def]
    exact g1
  · rw [encodeC.eq_def, sizeC.eq_def]
    exact g2
  · rw [encodeC.eq_def, decodeC.eq_def]
    simp only
    rw [g3 suf]

theorem mem_of_lookup {β : Type} (l : List (String × β)) (t : String) (c : β)
    (h : l.lookup t = some c) : (t, c) ∈ l := by
  induction l with
  | nil => simp [List.lookup] at h
  | cons p rest ih =>
    match p with
    | (k, b) =>
      rw [List.lookup] at h
      by_cases he : t = k
      · subst he
        rw [beq_self_eq_true] at h
        simp only at h
        injection h with hbc
        subst hbc
        exact List.mem_cons_self _ _
      · have hf : (t == k) = false := by simpa using he
        rw [hf] at h
        simp only at h
        exact List.mem_cons_of_mem _ (ih h)

theorem good_unionC (variants : List (String × Code)) (v : Val)
    (IH : ∀ k c, (k, c) ∈ variants → ∀ v', encodable c v' = true → Good c v')
    (hv : encodable (.unionC variants) v = true) : Good (.unionC variants) v := by
  cases v <;> rw [encodable.eq_def] at hv <;>
    simp only [Bool.false_eq_true, Bool.and_eq_true, decide_eq_true_eq] at hv
  case tagged t pv =>
  cases hlk : variants.lookup t with
  | none => rw [hlk] at hv; simp at hv
  | some c =>
    rw [hlk] at hv
    simp only [Bool.and_eq_true, decide_eq_true_eq] at hv
    obtain ⟨hidx, hev⟩ := hv
    obtain ⟨e1, e2, e3⟩ := IH t c (mem_of_lookup variants t c hlk) pv hev
    obtain ⟨hfi, hget⟩ := lookup_findIdx_get variants t c hlk
    have hmod : variants.findIdx (fun p => p.1 == t) % 256 =
        variants.findIdx (fun p => p.1 == t) := Nat.mod_eq_of_lt hidx
    have henc : encodeC (.unionC variants) (.tagged t pv) =
        (variants.findIdx (fun p => p.1 == t) :: (encodeC c pv).1, none) := by
      rw [encodeC.eq_def]
      simp only
      split
      next c2 heq =>
        rw [hlk] at heq
        injection heq with hcc
        subst hcc
        rw [eseq_ok, hmod, e1]
        rfl
      next heq =>
        rw [hlk] at heq
        cases heq
    refine ⟨by rw [henc], ?_, fun suf => ?_⟩
    · rw [henc, sizeC.eq_def]
      simp only
      split
      next c2 heq =>
        rw [hlk] at heq
        injection heq with hcc
        subst hcc
        rw [e2]
        simp only [List.length_cons]
        simp [Nat.add_comm]
      next heq =>
        rw [hlk] at heq
        cases heq
    · rw [henc, decodeC.eq_def]
      simp only [List.cons_append, rd1]
      rw [dif_pos hfi]
      simp only [hget]
      split
      next c2 heq =>
        rw [hget] at heq
        simp only at heq
        rw [hlk] at heq
        injection heq with hcc
        subst hcc
        rw [e3 suf]
      next heq =>
        rw [hget] at heq
        simp only at heq
        rw [hlk] at heq
        cases heq

theorem good_duC (tag : String) (cands : List (List (String × Code))) (v : Val)
    (IH : ∀ cand, cand ∈ cands → ∀ k c, (k, c) ∈ cand →
      ∀ v', encodable c v' = true → Good c v')
    (hv : encodable (.duC tag cands) v = true) : Good (.duC tag cands) v := by
  cases v <;> rw [encodable.eq_def] at hv <;>
    simp only [Bool.false_eq_true, Bool.and_eq_true, decide_eq_true_eq] at hv
  case obj fs =>
  by_cases hdi : duIdx tag cands fs < cands.length
  case neg => rw [dif_neg hdi] at hv; simp at hv
  rw [dif_pos hdi] at hv
  simp only [Bool.and_eq_true, decide_eq_true_eq] at hv
  obtain ⟨⟨hidx, hnd⟩, hef⟩ := hv
  have hndv : (fs.map Prod.fst).Nodup := by
    rw [encodableFields_keys _ fs hef]
    unfold keysNodup at hnd
    exact of_decide_eq_true hnd
  obtain ⟨g1, g2, g3⟩ :=
    main_fields (cands.get ⟨duIdx tag cands fs, hdi⟩)
      (IH _ (cands.get_mem _ _)) fs fs hef
      (fun k v hm => lookup_of_mem_nodup fs k v hndv hm)
  have hmod : duIdx tag cands fs % 256 = duIdx tag cands fs := Nat.mod_eq_of_lt hidx
  have henc : encodeC (.duC tag cands) (.obj fs) =
      (duIdx tag cands fs :: (encodeFields (cands.get ⟨duIdx tag cands fs, hdi⟩) fs).1,
        none) := by
    rw [encodeC.eq_def]
    simp only
    rw [dif_pos hdi, eseq_ok, hmod, g1]
    rfl
  refine ⟨by rw [henc], ?_, fun suf => ?_⟩
  · rw [henc, sizeC.eq_def]
    simp only
    rw [dif_pos hdi, g2]
    simp only [List.length_cons]
    simp [Nat.add_comm]
  · rw [henc, decodeC.eq_def]
    simp only [List.cons_append, rd1]
    rw [dif_pos hdi]
    rw [g3 suf]

theorem good_envC (c : Code) (v : Val)
    (IH : ∀ v', encodable c v' = true → Good c v')
    (hv : encodable (.envC c) v = true) : Good (.envC c) v := by
  rw [encodable.eq_def] at hv
  simp only [Bool.and_eq_true, decide_eq_true_eq] at hv
  obtain ⟨hev, hlen⟩ := hv
  obtain ⟨e1, e2, e3⟩ := IH v hev
  have henc : encodeC (.envC c) v =
      (beBytes 4 HEADER ++ beBytes 2 VERSION ++ beBytes 4 (encodeC c v).1.length ++
        (encodeC c v).1, none) := by
    rw [encodeC.eq_def]
    simp only
    rw [enc_eta c v e1]
  refine ⟨by rw [henc], ?_, fun suf => ?_⟩
  · rw [henc, sizeC.eq_def]
    simp only
    rw [e2]
    simp
    omega
  · rw [henc, decodeC.eq_def]
    simp only [List.append_assoc]
    rw [rdU32_exact HEADER _ (by norm_num [HEADER])]
    simp only
    rw [if_pos trivial]
    rw [rdN_len 2 (beBytes 2 VERSION) _ (by simp)]
    simp only
    rw [show beNat (beBytes 2 VERSION) = 1 from beNat_beBytes 2 1 (by norm_num)]
    rw [if_pos rfl]
    rw [rdU32_exact (encodeC c v).1.length _ hlen]
    simp only
    rw [rdN_len (encodeC c v).1.length _ suf rfl]
    simp only
    have h3 := e3 []
    rw [List.append_nil] at h3
    rw [h3]

theorem code_sizeOf_pos (c : Code) : 0 < sizeOf c := by
  cases c <;> simp

theorem main_aux : ∀ (n : Nat) (c : Code), sizeOf c ≤ n →
    ∀ v, encodable c v = true → Good c v := by
  intro n
  induction n with
  | zero =>
    intro c hc
    exact absurd hc (by have := code_sizeOf_pos c; omega)
  | succ n ih =>
    intro c hc v hv
    match c with
    | .uintC w le => exact good_uintC w le v hv
    | .intC w le => exact good_intC w le v hv
    | .bigUintC le => exact good_bigUintC le v hv
    | .bigIntC le => exact good_bigIntC le v hv
    | .boolC => exact good_boolC v hv
    | .utf8D mb => exact good_utf8D mb v hv
    | .utf8F m => exact good_utf8F m v hv
    | .bytesD mx => exact good_bytesD mx v hv
    | .bytesF m => exact good_bytesF m v hv
    | .litC v0 => exact good_litC v0 v hv
    | .optC c1 =>
      refine good_optC c1 v (fun v' hv' => ih c1 ?_ v' hv') hv
      have hlt : sizeOf c1 < sizeOf (Code.optC c1) := by simp
      omega
    | .nullC c1 =>
      refine good_nullC c1 v (fun v' hv' => ih c1 ?_ v' hv') hv
      have hlt : sizeOf c1 < sizeOf (Code.nullC c1) := by simp
      omega
    | .arrC c1 mx =>
      refine good_arrC c1 mx v (fun v' hv' => ih c1 ?_ v' hv') hv
      have hlt : sizeOf c1 < sizeOf (Code.arrC c1 mx) := by simp; omega
      omega
    | .structC fields =>
      refine good_structC fields v (fun k c1 hm v' hv' => ih c1 ?_ v' hv') hv
      have h1 : sizeOf (k, c1) < sizeOf fields := List.sizeOf_lt_of_mem hm
      have h2 : sizeOf (Code.structC fields) = 1 + sizeOf fields := by simp
      simp at h1
      omega
    | .tupleC cs =>
      refine good_tupleC cs v (fun c1 hm v' hv' => ih c1 ?_ v' hv') hv
      have h1 : sizeOf c1 < sizeOf cs := List.sizeOf_lt_of_mem hm
      have h2 : sizeOf (Code.tupleC cs) = 1 + sizeOf cs := by simp
      omega
    | .unionC variants =>
      refine good_unionC variants v (fun k c1 hm v' hv' => ih c1 ?_ v' hv') hv
      have h1 : sizeOf (k, c1) < sizeOf variants := List.sizeOf_lt_of_mem hm
      have h2 : sizeOf (Code.unionC variants) = 1 + sizeOf variants := by simp
      simp at h1
      omega
    | .duC tag cands =>
      refine good_duC tag cands v (fun cand hcand k c1 hm v' hv' => ih c1 ?_ v' hv') hv
      have h1 : sizeOf cand < sizeOf cands := List.sizeOf_lt_of_mem hcand
      have h2 : sizeOf (k, c1) < sizeOf cand := List.sizeOf_lt_of_mem hm
      have h3 : sizeOf (Code.duC tag cands) = 1 + sizeOf tag + sizeOf cands := by simp
      simp at h2
      omega
    | .envC c1 =>
      refine good_envC c1 v (fun v' hv' => ih c1 ?_ v' hv') hv
      have hlt : sizeOf c1 < sizeOf (Code.envC c1) := by simp
      omega

/-- Every encodable value of every codec in the universe satisfies the
combined encode/size/decode contract. -/
theorem good_all (c : Code) (v : Val) (hv : encodable c v = true) : Good c v :=
  main_aux (sizeOf c) c (Nat.le_refl _) v hv

/-! ## Claim theorems -/

/-- Example: a struct containing an array of optional tagged-union
values — the nested combination named by the round-trip law. -/
def exCodec : Code :=
  .structC [("a", .arrC (.optC (.unionC [("x", .uintC 1 false), ("y", .utf8D none)])) none)]

/-- Example value for `exCodec`. -/
def exVal : Val :=
  .obj [("a", .arr [.undef, .tagged "x" (.num 5), .tagged "y" (.str [104, 105])])]

/-- C1: for every codec built from the library's primitives and
combinators (the `Code` universe) and every value `v` encodable by it,
decoding the bytes produced by encoding `v` yields exactly `v`,
consuming the whole buffer — the round-trip law, for arbitrarily
nested combinations. -/
theorem c1_roundtrip (c : Code) (v : Val) (h : encodable c v = true) :
    decodeC c (encodeC c v).1 = .ok v [] := by
  have hg := (good_all c v h).2.2 []
  rwa [List.append_nil] at hg

theorem encodable_exCodec : encodable exCodec exVal = true := by
  simp [exCodec, exVal, encodable, encodableFields, encodableVals, keysNodup, valEq,
    validUtf8, vRun, leadSpec, List.lookup, List.findIdx, List.findIdx.go]

/-- C1 witness: the law applied to the nested example. -/
theorem c1_roundtrip_witness :
    encodable exCodec exVal = true ∧
    decodeC exCodec (encodeC exCodec exVal).1 = .ok exVal [] :=
  ⟨encodable_exCodec, c1_roundtrip exCodec exVal encodable_exCodec⟩

/-- C2: for every codec and every encodable value, encoding succeeds
and the codec's size descriptor applied to the value equals exactly
the number of bytes encoding produces; `sizeC` is a pure function and
never touches a buffer. -/
theorem c2_size_encode_agree (c : Code) (v : Val) (h : encodable c v = true) :
    (encodeC c v).2 = none ∧ sizeC c v = .ok (encodeC c v).1.length :=
  ⟨(good_all c v h).1, (good_all c v h).2.1⟩

/-- C2 witness: size/encode agreement at the nested example. -/
theorem c2_size_encode_agree_witness :
    encodable exCodec exVal = true ∧
    ((encodeC exCodec exVal).2 = none ∧
      sizeC exCodec exVal = .ok (encodeC exCodec exVal).1.length) :=
  ⟨encodable_exCodec, c2_size_encode_agree exCodec exVal encodable_exCodec⟩

theorem rdU32_take (bs : List Nat) (h : 4 ≤ bs.length) :
    rdU32 bs = some (beNat (bs.take 4), bs.drop 4) := by
  unfold rdU32 rdN
  rw [if_pos h]

/-- C3: envelope decoding fails with the distinct header-mismatch
error on any buffer whose first 4 bytes are not the magic header,
consuming only those 4 bytes; fails with the unsupported-version error
on any buffer with a correct header whose 2-byte version field is not
the supported version `1`, consuming only the 6 header/version bytes —
in both cases no payload bytes are consumed; and on a well-formed
envelope it reads the 4-byte length `n` and decodes exactly the `n`
payload bytes with the inner codec on a fresh reader scoped to that
slice. -/
theorem c3_envelope_decode :
    (∀ (c : Code) (bs : List Nat), 4 ≤ bs.length → beNat (bs.take 4) ≠ HEADER →
      decodeC (.envC c) bs = .err .missingHeader (bs.drop 4)) ∧
    (∀ (c : Code) (bs : List Nat), 6 ≤ bs.length → beNat (bs.take 4) = HEADER →
      beNat ((bs.drop 4).take 2) ≠ 1 →
      decodeC (.envC c) bs =
        .err (.badVersion (beNat ((bs.drop 4).take 2))) (bs.drop 6)) ∧
    (∀ (c : Code) (n : Nat) (payload rest : List Nat), payload.length = n → n < 2 ^ 32 →
      decodeC (.envC c)
          (beBytes 4 HEADER ++ beBytes 2 VERSION ++ beBytes 4 n ++ payload ++ rest) =
        match decodeC c payload with
        | .ok v _ => .ok v rest
        | .err e _ => .err e rest) := by
  refine ⟨fun c bs h4 hh => ?_, fun c bs h6 hh hv => ?_, fun c n payload rest hlen hn => ?_⟩
  · rw [decodeC.eq_def]
    simp only
    rw [rdU32_take bs h4]
    simp only
    rw [if_neg hh]
  · rw [decodeC.eq_def]
    simp only
    rw [rdU32_take bs (by omega)]
    simp only
    rw [if_pos hh]
    have h2 : rdN 2 (bs.drop 4) = some ((bs.drop 4).take 2, (bs.drop 4).drop 2) := by
      unfold rdN
      rw [if_pos (by simp; omega)]
    rw [h2]
    simp only
    rw [if_neg hv]
    rw [List.drop_drop]
  · rw [decodeC.eq_def]
    simp only [List.append_assoc]
    rw [rdU32_exact HEADER _ (by norm_num [HEADER])]
    simp only
    rw [if_pos trivial]
    rw [rdN_len 2 (beBytes 2 VERSION) _ (by simp)]
    simp only
    rw [show beNat (beBytes 2 VERSION) = 1 from beNat_beBytes 2 1 (by norm_num)]
    rw [if_pos rfl]
    rw [rdU32_exact n _ hn]
    simp only
    rw [rdN_len n payload _ hlen]

/-- C3 witness: a wrong-magic buffer, a wrong-version buffer, and a
well-formed envelope around a one-byte payload. -/
theorem c3_envelope_decode_witness :
    decodeC (.envC (.uintC 1 false)) [0, 0, 0, 0, 9] = .err .missingHeader [9] ∧
    decodeC (.envC (.uintC 1 false)) [0xb1, 0x6e, 0xc0, 0xde, 0, 2, 7] =
      .err (.badVersion 2) [7] ∧
    decodeC (.envC (.uintC 1 false))
        (beBytes 4 HEADER ++ beBytes 2 VERSION ++ beBytes 4 1 ++ [5] ++ [8]) =
      .ok (.num 5) [8] := by
  refine ⟨c3_envelope_decode.1 (.uintC 1 false) [0, 0, 0, 0, 9] (by decide) (by decide),
    c3_envelope_decode.2.1 (.uintC 1 false) [0xb1, 0x6e, 0xc0, 0xde, 0, 2, 7]
      (by decide) (by decide) (by decide), ?_⟩
  have h := c3_envelope_decode.2.2 (.uintC 1 false) 1 [5] [8] rfl (by norm_num)
  have hd : decodeC (.uintC 1 false) [5] = .ok (.num 5) [] := by
    rw [decodeC.eq_def]
    simp [rdN, uVal, beNat]
  rw [hd] at h
  exact h

/-- C4: an array codec configured with `maxLength` fails encoding any
sequence longer than the bound before writing a single byte, and fails
decoding any buffer whose 4-byte count prefix exceeds the bound after
consuming only the count prefix, before reading any element bytes. -/
theorem c4_array_max :
    (∀ (c : Code) (m : Nat) (vs : List Val), vs.length > m →
      encodeC (.arrC c (some m)) (.arr vs) = ([], some .arrTooLong)) ∧
    (∀ (c : Code) (m : Nat) (bs : List Nat), 4 ≤ bs.length → beNat (bs.take 4) > m →
      decodeC (.arrC c (some m)) bs =
        .err (.arrLenOver (beNat (bs.take 4)) m) (bs.drop 4)) := by
  refine ⟨fun c m vs hl => ?_, fun c m bs h4 hm => ?_⟩
  · rw [encodeC.eq_def]
    simp only
    rw [if_pos hl]
  · rw [decodeC.eq_def]
    simp only
    rw [rdU32_take bs h4]
    simp only
    rw [if_pos hm]

/-- C4 witness: `maxLength 2` rejects encoding a 3-element array and
rejects decoding a buffer whose count prefix is 3. -/
theorem c4_array_max_witness :
    encodeC (.arrC (.uintC 1 false) (some 2)) (.arr [.num 1, .num 2, .num 3]) =
      ([], some .arrTooLong) ∧
    decodeC (.arrC (.uintC 1 false) (some 2)) [0, 0, 0, 3, 1, 2, 3] =
      .err (.arrLenOver 3 2) [1, 2, 3] :=
  ⟨c4_array_max.1 (.uintC 1 false) 2 [.num 1, .num 2, .num 3] (by decide),
    c4_array_max.2 (.uintC 1 false) 2 [0, 0, 0, 3, 1, 2, 3] (by decide) (by decide)⟩

/-- C6: `taggedUnion` encodes a `(name, payload)` pair as one index
byte equal to the position of the name in the declared variant order,
followed by the variant codec's payload bytes; encoding an undeclared
tag name fails with the bad-tag error before writing anything;
decoding fails on an index byte outside the declared range after the
index byte; and an in-range index byte decodes the payload with that
variant's codec and returns the `(name, payload)` pair. -/
theorem c6_tagged_union :
    (∀ (variants : List (String × Code)) (t : String) (c : Code) (pv : Val),
      variants.lookup t = some c →
      variants.findIdx (fun p => p.1 == t) < 256 →
      encodeC (.unionC variants) (.tagged t pv) =
        (variants.findIdx (fun p => p.1 == t) :: (encodeC c pv).1, (encodeC c pv).2)) ∧
    (∀ (variants : List (String × Code)) (t : String) (pv : Val),
      variants.lookup t = none →
      encodeC (.unionC variants) (.tagged t pv) = ([], some (.badTag t))) ∧
    (∀ (variants : List (String × Code)) (i : Nat) (r1 : List Nat),
      variants.length ≤ i →
      decodeC (.unionC variants) (i :: r1) = .err (.badTagIndex i) r1) ∧
    (∀ (variants : List (String × Code)) (i : Nat) (hi : i < variants.length)
      (t : String) (c : Code) (pv : Val) (r1 r2 : List Nat),
      variants.get ⟨i, hi⟩ = (t, c) →
      variants.lookup t = some c →
      decodeC c r1 = .ok pv r2 →
      decodeC (.unionC variants) (i :: r1) = .ok (.tagged t pv) r2) := by
  refine ⟨fun variants t c pv hlk hidx => ?_, fun variants t pv hlk => ?_,
    fun variants i r1 hge => ?_,
    fun variants i hi t c pv r1 r2 hget hlk hdec => ?_⟩
  · rw [encodeC.eq_def]
    simp only
    split
    next c2 heq =>
      rw [hlk] at heq
      injection heq with hcc
      subst hcc
      rw [eseq_ok, Nat.mod_eq_of_lt hidx]
      rfl
    next heq =>
      rw [hlk] at heq
      cases heq
  · rw [encodeC.eq_def]
    simp only
    split
    next c2 heq =>
      rw [hlk] at heq
      cases heq
    next heq => rfl
  · rw [decodeC.eq_def]
    simp only [rd1]
    rw [dif_neg (by omega)]
  · rw [decodeC.eq_def]
    simp only [rd1]
    rw [dif_pos hi]
    simp only [hget]
    split
    next c2 heq =>
      rw [hget] at heq
      simp only at heq
      rw [hlk] at heq
      injection heq with hcc
      subst hcc
      rw [hdec]
    next heq =>
      rw [hget] at heq
      simp only at heq
      rw [hlk] at heq
      cases heq

theorem enc_u1_7 : encodeC (.uintC 1 false) (.num 7) = ([7], none) := by
  rw [encodeC.eq_def]
  simp [uintBytes, beBytes]

theorem enc_bool_t : encodeC .boolC (.bool true) = ([1], none) := by
  rw [encodeC.eq_def]
  rfl

theorem dec_bool_1 : decodeC .boolC [1] = .ok (.bool true) [] := by
  rw [decodeC.eq_def]
  rfl

/-- C6 witness: with variants declared in order `a`, `b`, the pair
`("a", 7)` encodes as index `0` then the payload, `("b", true)` as
index `1` then the payload; an unknown tag fails; index `9` fails on
decode; index `1` decodes variant `b`. -/
theorem c6_tagged_union_witness :
    encodeC (.unionC [("a", .uintC 1 false), ("b", .boolC)]) (.tagged "a" (.num 7)) =
      ([0, 7], none) ∧
    encodeC (.unionC [("a", .uintC 1 false), ("b", .boolC)]) (.tagged "b" (.bool true)) =
      ([1, 1], none) ∧
    encodeC (.unionC [("a", .uintC 1 false), ("b", .boolC)]) (.tagged "zz" (.num 7)) =
      ([], some (.badTag "zz")) ∧
    decodeC (.unionC [("a", .uintC 1 false), ("b", .boolC)]) [9, 7] =
      .err (.badTagIndex 9) [7] ∧
    decodeC (.unionC [("a", .uintC 1 false), ("b", .boolC)]) [1, 1] =
      .ok (.tagged "b" (.bool true)) [] := by
  refine ⟨?_, ?_, ?_, ?_, ?_⟩
  · have h := c6_tagged_union.1 [("a", .uintC 1 false), ("b", .boolC)] "a"
      (.uintC 1 false) (.num 7) rfl (by decide)
    rw [enc_u1_7] at h
    exact h
  · have h := c6_tagged_union.1 [("a", .uintC 1 false), ("b", .boolC)] "b"
      .boolC (.bool true) rfl (by decide)
    rw [enc_bool_t] at h
    exact h
  · exact c6_tagged_union.2.1 [("a", .uintC 1 false), ("b", .boolC)] "zz" (.num 7) rfl
  · exact c6_tagged_union.2.2.1 [("a", .uintC 1 false), ("b", .boolC)] 9 [7] (by decide)
  · exact c6_tagged_union.2.2.2 [("a", .uintC 1 false), ("b", .boolC)] 1 (by decide)
      "b" .boolC (.bool true) [1] [] rfl rfl dec_bool_1

/-- C7: the fixed-width UTF-8 codec of width `n` encodes a string of
byte length at most `n` as its content bytes followed by NUL padding
up to `n`, and decoding reads exactly `n` bytes, UTF-8-decodes them,
and strips the trailing NUL bytes, recovering the string. -/
theorem c7_fixed_utf8 (n : Nat) (bs suf : List Nat)
    (hlen : bs.length ≤ n) (hval : validUtf8 bs = true) (htz : noTrailZero bs = true) :
    encodeC (.utf8F n) (.str bs) = (bs ++ List.replicate (n - bs.length) 0, none) ∧
    decodeC (.utf8F n) ((bs ++ List.replicate (n - bs.length) 0) ++ suf) =
      .ok (.str bs) suf := by
  have hg := good_utf8F n (.str bs) (by
    rw [encodable.eq_def]
    simp only [Bool.and_eq_true, decide_eq_true_eq]
    exact ⟨⟨hval, hlen⟩, htz⟩)
  have henc : encodeC (.utf8F n) (.str bs) =
      (bs ++ List.replicate (n - bs.length) 0, none) := by
    rw [encodeC.eq_def]
    simp only
    rw [if_neg (by omega)]
  refine ⟨henc, ?_⟩
  have h3 := hg.2.2 suf
  rwa [henc] at h3

/-- C7 witness: `"abc"` (bytes `97 98 99`) at width 5 encodes as three
content bytes and two NUL bytes, and that buffer decodes back to
`"abc"`. -/
theorem c7_fixed_utf8_witness :
    encodeC (.utf8F 5) (.str [97, 98, 99]) = ([97, 98, 99, 0, 0], none) ∧
    decodeC (.utf8F 5) [97, 98, 99, 0, 0] = .ok (.str [97, 98, 99]) [] := by
  have h := c7_fixed_utf8 5 [97, 98, 99] [] (by decide) (by decide) (by decide)
  refine ⟨?_, ?_⟩
  · have h1 := h.1
    simpa using h1
  · have h2 := h.2
    simpa using h2

/-! ### Reader and writer models

`reader` holds a buffer and a cursor; `read size fn` calls
`fn buf pos (pos + size)` and then advances `pos` by `size`.
`checkedReader` first runs `ensure size`, which throws
`Out of bounds: need n at pos, len=buf.length` when `pos + n > buf.length`,
before the callback runs and before `pos` advances.  The callback is
modelled as an arbitrary function of the buffer and the two offsets. -/

structure RState where
  buf : List Nat
  pos : Nat
deriving DecidableEq

def readerRead {α : Type} (s : RState) (n : Nat) (f : List Nat → Nat → Nat → α) :
    α × RState :=
  (f s.buf s.pos (s.pos + n), ⟨s.buf, s.pos + n⟩)

structure BoundsErr where
  need : Nat
  pos : Nat
  len : Nat
deriving DecidableEq

def boundsMsg (e : BoundsErr) : String :=
  "Out of bounds: need " ++ Nat.repr e.need ++ " at " ++ Nat.repr e.pos ++
    ", len=" ++ Nat.repr e.len

def checkedReaderRead {α : Type} (s : RState) (n : Nat) (f : List Nat → Nat → Nat → α) :
    Except BoundsErr α × RState :=
  if s.pos + n > s.buf.length then (.error ⟨n, s.pos, s.buf.length⟩, s)
  else (.ok (f s.buf s.pos (s.pos + n)), ⟨s.buf, s.pos + n⟩)

/-- C5: whenever `pos + n` exceeds the buffer length, a checked
reader's read fails with a bounds error carrying the requested size,
the current position and the total buffer length — its message reads
`Out of bounds: need n at pos, len=len` — and the reader state is left
unchanged (no position advance); the unchecked reader performs the
same read without raising, returning the callback's result. -/
theorem c5_checked_bounds {α : Type} (s : RState) (n : Nat)
    (f : List Nat → Nat → Nat → α) (h : s.buf.length < s.pos + n) :
    (checkedReaderRead s n f = (.error ⟨n, s.pos, s.buf.length⟩, s) ∧
      boundsMsg ⟨n, s.pos, s.buf.length⟩ =
        "Out of bounds: need " ++ Nat.repr n ++ " at " ++ Nat.repr s.pos ++
          ", len=" ++ Nat.repr s.buf.length) ∧
    readerRead s n f = (f s.buf s.pos (s.pos + n), ⟨s.buf, s.pos + n⟩) := by
  refine ⟨⟨?_, rfl⟩, rfl⟩
  rw [checkedReaderRead, if_pos (by omega)]

/-- C5 witness: reading 4 bytes from a 2-byte buffer at position 0
fails on the checked reader with `need 4 at 0, len=2` and leaves the
state unchanged, while the unchecked reader returns the (short) slice
the callback extracted and advances to position 4. -/
theorem c5_checked_bounds_witness :
    (checkedReaderRead (RState.mk [10, 20] 0) 4 (fun b p q => (b.drop p).take (q - p)) =
        (.error ⟨4, 0, 2⟩, RState.mk [10, 20] 0) ∧
      boundsMsg ⟨4, 0, 2⟩ =
        "Out of bounds: need " ++ Nat.repr 4 ++ " at " ++ Nat.repr 0 ++
          ", len=" ++ Nat.repr 2) ∧
    readerRead (RState.mk [10, 20] 0) 4 (fun b p q => (b.drop p).take (q - p)) =
      ([10, 20], RState.mk [10, 20] 4) :=
  c5_checked_bounds (RState.mk [10, 20] 0) 4 (fun b p q => (b.drop p).take (q - p))
    (by decide)

/-- C9: every read that returns normally advances the cursor by
exactly the requested size `n`, independently of the supplied
callback: the unchecked reader always ends at `pos + n` and two reads
with different callbacks end in the same state, and whenever the
checked reader returns a value its final position is `pos + n`. -/
theorem c9_read_advance {α : Type} (s : RState) (n : Nat)
    (f g : List Nat → Nat → Nat → α) :
    ((readerRead s n f).2.pos = s.pos + n ∧
      (readerRead s n f).2 = (readerRead s n g).2) ∧
    (∀ (r : α) (s2 : RState), checkedReaderRead s n f = (.ok r, s2) →
      s2.pos = s.pos + n) := by
  refine ⟨⟨rfl, rfl⟩, fun r s2 hok => ?_⟩
  rw [checkedReaderRead] at hok
  split at hok
  · cases hok
  · injection hok with h1 h2
    rw [← h2]

/-- C9 witness: reading 2 bytes from position 0 of a 3-byte buffer
ends at position 2 for the unchecked reader with any callback, and
the checked reader's successful read also ends at position 2. -/
theorem c9_read_advance_witness :
    ((readerRead (RState.mk [1, 2, 3] 0) 2 (fun b p q => (b.drop p).take (q - p))).2.pos =
        0 + 2 ∧
      (readerRead (RState.mk [1, 2, 3] 0) 2 (fun b p q => (b.drop p).take (q - p))).2 =
        (readerRead (RState.mk [1, 2, 3] 0) 2 (fun _ _ _ => ([] : List Nat))).2) ∧
    (RState.mk [1, 2, 3] 2).pos = 0 + 2 :=
  ⟨(c9_read_advance (RState.mk [1, 2, 3] 0) 2 (fun b p q => (b.drop p).take (q - p))
      (fun _ _ _ => ([] : List Nat))).1,
    (c9_read_advance (RState.mk [1, 2, 3] 0) 2 (fun b p q => (b.drop p).take (q - p))
      (fun _ _ _ => ([] : List Nat))).2 [1, 2] (RState.mk [1, 2, 3] 2) rfl⟩

/-! ### Writer model

A write operation is modelled by its declared `size` and the bytes its
callback actually stores starting at the given offset (at most `size`
of them; the rest of the slice is left untouched).  The fixed writer
preallocates a zero-filled buffer of the total size and each write
stores its bytes in place at the running position; the growable writer
gives each write a fresh zero-filled chunk of exactly its size and
flush concatenates the chunks. -/

structure WOp where
  size : Nat
  data : List Nat
deriving DecidableEq

def chunkOf (op : WOp) : List Nat :=
  op.data ++ List.replicate (op.size - op.data.length) 0

def totalSize (ops : List WOp) : Nat := (ops.map WOp.size).sum

def writeAt (buf : List Nat) (pos : Nat) (data : List Nat) : List Nat :=
  buf.take pos ++ data ++ buf.drop (pos + data.length)

def fixedGo : List Nat → Nat → List WOp → List Nat
  | buf, _, [] => buf
  | buf, pos, op :: rest => fixedGo (writeAt buf pos op.data) (pos + op.size) rest

def fixedFlush (ops : List WOp) : List Nat :=
  fixedGo (List.replicate (totalSize ops) 0) 0 ops

def growableFlush (ops : List WOp) : List Nat := (ops.map chunkOf).flatten

theorem length_chunkOf (op : WOp) (h : op.data.length ≤ op.size) :
    (chunkOf op).length = op.size := by
  simp [chunkOf]
  omega

theorem fixedGo_spec (ops : List WOp) (pre : List Nat)
    (h : ∀ op ∈ ops, op.data.length ≤ op.size) :
    fixedGo (pre ++ List.replicate (totalSize ops) 0) pre.length ops =
      pre ++ growableFlush ops := by
  induction ops generalizing pre with
  | nil => simp [fixedGo, totalSize, growableFlush]
  | cons op rest ih =>
    have hop : op.data.length ≤ op.size := h op (by simp)
    have hrest : ∀ o ∈ rest, o.data.length ≤ o.size := fun o ho => h o (by simp [ho])
    rw [fixedGo]
    have hT : totalSize (op :: rest) = op.size + totalSize rest := by
      simp [totalSize]
    have hwa : writeAt (pre ++ List.replicate (totalSize (op :: rest)) 0) pre.length op.data =
        (pre ++ chunkOf op) ++ List.replicate (totalSize rest) 0 := by
      rw [writeAt, hT]
      rw [List.take_left, List.drop_append]
      rw [List.drop_replicate]
      rw [chunkOf]
      have : op.size + totalSize rest - op.data.length =
          (op.size - op.data.length) + totalSize rest := by omega
      rw [this, List.replicate_add, List.append_assoc, List.append_assoc, List.append_assoc]
    rw [hwa]
    have hpos : pre.length + op.size = (pre ++ chunkOf op).length := by
      simp [length_chunkOf op hop]
    rw [hpos, ih (pre ++ chunkOf op) hrest]
    simp [growableFlush]

/-- C8: for every sequence of write operations (each storing at most
its declared size), the fixed writer preallocated with the sequence's
total size and the growable writer flush byte-identical buffers. -/
theorem c8_writer_equiv (ops : List WOp)
    (h : ∀ op ∈ ops, op.data.length ≤ op.size) :
    fixedFlush ops = growableFlush ops := by
  have hs := fixedGo_spec ops [] h
  simpa [fixedFlush] using hs

/-- C8 witness: two writes (a 2-byte slot filled with one byte, then a
1-byte slot) flush to the same bytes `5 0 7` from both writers. -/
theorem c8_writer_equiv_witness :
    fixedFlush [WOp.mk 2 [5], WOp.mk 1 [7]] = growableFlush [WOp.mk 2 [5], WOp.mk 1 [7]] ∧
    growableFlush [WOp.mk 2 [5], WOp.mk 1 [7]] = [5, 0, 7] :=
  ⟨c8_writer_equiv [WOp.mk 2 [5], WOp.mk 1 [7]] (by decide), by decide⟩

end LB